import Mathlib

/-!
Verification development for the finite-automaton engine of `src/tools/nfa.py`
(the richer of the two modules; the minimal acceptor in `src/automata/nfa.py`
is out of the spec's scope).  States and symbols are Python strings; the
transition dictionary maps `(state, symbol)` keys to sets of target states.
The dictionary is embedded as an association list kept in insertion order,
exactly the observable behaviour of a Python `dict`; target sets, state sets,
alphabets and final-state sets are embedded as `Finset String`.
-/

set_option maxRecDepth 8000

instance {α β : Type} [DecidableEq α] [DecidableEq β] : DecidableEq (Except α β) :=
  fun a b =>
    match a, b with
    | .ok x, .ok y =>
        if h : x = y then isTrue (by rw [h]) else isFalse (fun he => h (Except.ok.inj he))
    | .error x, .error y =>
        if h : x = y then isTrue (by rw [h]) else isFalse (fun he => h (Except.error.inj he))
    | .ok _, .error _ => isFalse (fun he => Except.noConfusion he)
    | .error _, .ok _ => isFalse (fun he => Except.noConfusion he)

namespace Simone

/-- The mutable automaton object of `src/tools/nfa.py` (`class NFA`), one value
per observable object state. -/
structure NFA where
  states : Finset String
  alphabet : Finset String
  transitions : List ((String × String) × Finset String)
  initial_state : String
  final_states : Finset String
deriving DecidableEq

/-- `self._transitions.get(k)`: the (unique, for a dict) entry with key `k`. -/
def tlookup (ts : List ((String × String) × Finset String)) (k : String × String) :
    Option (Finset String) :=
  (ts.find? (fun kv => decide (kv.1 = k))).map (fun kv => kv.2)

/-- `self._transitions.get(k, set())`. -/
def tget (ts : List ((String × String) × Finset String)) (k : String × String) :
    Finset String :=
  (tlookup ts k).getD ∅

/-- `self._transitions.pop(k, set())` / `del self._transitions[k]`: the entry
with key `k` is removed. -/
def tdel (ts : List ((String × String) × Finset String)) (k : String × String) :
    List ((String × String) × Finset String) :=
  ts.filter (fun kv => decide (kv.1 ≠ k))

/-- `self._transitions[k] = v`: a Python dict assignment overwrites an existing
entry in place and appends a fresh key at the end. -/
def tset (ts : List ((String × String) × Finset String)) (k : String × String)
    (v : Finset String) : List ((String × String) × Finset String) :=
  if (tlookup ts k).isSome then
    ts.map (fun kv => if kv.1 = k then (k, v) else kv)
  else
    ts ++ [(k, v)]

theorem tlookup_cons (kv : (String × String) × Finset String)
    (ts : List ((String × String) × Finset String)) (k : String × String) :
    tlookup (kv :: ts) k = if kv.1 = k then some kv.2 else tlookup ts k := by
  by_cases h : kv.1 = k <;> simp [tlookup, List.find?_cons, h]

theorem tlookup_tdel_self (ts : List ((String × String) × Finset String))
    (k : String × String) : tlookup (tdel ts k) k = none := by
  induction ts with
  | nil => rfl
  | cons kv rest ih =>
    by_cases h : kv.1 = k <;>
      simp only [tdel, List.filter_cons, h, decide_not] at ih ⊢ <;>
      simp [tlookup_cons, h, ih, tdel, decide_not]

theorem tlookup_tdel_other (ts : List ((String × String) × Finset String))
    (k k2 : String × String) (hne : k2 ≠ k) :
    tlookup (tdel ts k) k2 = tlookup ts k2 := by
  induction ts with
  | nil => rfl
  | cons kv rest ih =>
    by_cases h : kv.1 = k
    · have h2 : kv.1 ≠ k2 := fun e => hne (e ▸ h)
      simp only [tdel, List.filter_cons, decide_not, h] at ih ⊢
      simpa [tlookup_cons, h2, tdel, decide_not] using ih
    · simp only [tdel, List.filter_cons, decide_not, h] at ih ⊢
      by_cases h3 : kv.1 = k2 <;>
        simp [tlookup_cons, h3, ih, tdel, decide_not]

theorem tlookup_map_overwrite_self (ts : List ((String × String) × Finset String))
    (k : String × String) (v : Finset String) :
    tlookup (ts.map (fun kv => if kv.1 = k then (k, v) else kv)) k
      = if (tlookup ts k).isSome then some v else none := by
  induction ts with
  | nil => simp [tlookup]
  | cons kv rest ih =>
    by_cases h : kv.1 = k
    · simp [tlookup_cons, h]
    · simp [tlookup_cons, h, ih]

theorem tlookup_map_overwrite_other (ts : List ((String × String) × Finset String))
    (k k2 : String × String) (v : Finset String) (hne : k2 ≠ k) :
    tlookup (ts.map (fun kv => if kv.1 = k then (k, v) else kv)) k2 = tlookup ts k2 := by
  induction ts with
  | nil => rfl
  | cons kv rest ih =>
    by_cases h : kv.1 = k
    · have h2 : kv.1 ≠ k2 := fun e => hne (e ▸ h)
      have h3 : ((k, v) : (String × String) × Finset String).1 ≠ k2 := fun e => hne e.symm
      simp [tlookup_cons, h, h2, h3, ih]
    · simp [tlookup_cons, h, ih]

theorem tlookup_append_single (ts : List ((String × String) × Finset String))
    (k k2 : String × String) (v : Finset String) :
    tlookup (ts ++ [(k, v)]) k2 =
      if (tlookup ts k2).isSome then tlookup ts k2
      else if k = k2 then some v else none := by
  induction ts with
  | nil => by_cases h : k = k2 <;> simp [tlookup_cons, tlookup, h]
  | cons kv rest ih =>
    by_cases h : kv.1 = k2
    · simp [tlookup_cons, h]
    · simp [tlookup_cons, h, ih]

theorem tlookup_tset_self (ts : List ((String × String) × Finset String))
    (k : String × String) (v : Finset String) : tlookup (tset ts k v) k = some v := by
  unfold tset
  by_cases hf : (tlookup ts k).isSome
  · rw [if_pos hf, tlookup_map_overwrite_self, if_pos hf]
  · rw [if_neg hf, tlookup_append_single, if_neg hf, if_pos rfl]

theorem tlookup_tset_other (ts : List ((String × String) × Finset String))
    (k k2 : String × String) (v : Finset String) (hne : k2 ≠ k) :
    tlookup (tset ts k v) k2 = tlookup ts k2 := by
  unfold tset
  by_cases hf : (tlookup ts k).isSome
  · rw [if_pos hf, tlookup_map_overwrite_other ts k k2 v hne]
  · rw [if_neg hf, tlookup_append_single]
    by_cases h2 : (tlookup ts k2).isSome
    · rw [if_pos h2]
    · rw [if_neg h2, if_neg (fun e => hne (Eq.symm e)),
        Option.not_isSome_iff_eq_none.mp h2]

theorem mem_tdel (ts : List ((String × String) × Finset String)) (k : String × String)
    (kv : (String × String) × Finset String) (h : kv ∈ tdel ts k) : kv ∈ ts :=
  List.mem_of_mem_filter h

theorem mem_tset (ts : List ((String × String) × Finset String)) (k : String × String)
    (v : Finset String) (kv : (String × String) × Finset String)
    (h : kv ∈ tset ts k v) : kv = (k, v) ∨ kv ∈ ts := by
  unfold tset at h
  by_cases hf : (tlookup ts k).isSome
  · rw [if_pos hf] at h
    obtain ⟨kv0, hkv0, heq⟩ := List.mem_map.mp h
    by_cases he : kv0.1 = k
    · rw [if_pos he] at heq; exact .inl heq.symm
    · rw [if_neg he] at heq; exact .inr (heq ▸ hkv0)
  · rw [if_neg hf] at h
    rcases List.mem_append.mp h with h | h
    · exact .inr h
    · exact .inl (List.mem_singleton.mp h)

/-! ### A kernel-computable rendering of Python's `sorted` on strings.
Python compares strings lexicographically by code points; the comparator
below is structurally recursive, so concrete runs of the model reduce inside
the kernel. -/

/-- Lexicographic code-point comparison of character lists (`<=`). -/
def charsLe : List Char → List Char → Bool
  | [], _ => true
  | _ :: _, [] => false
  | a :: as, b :: bs => if a < b then true else if b < a then false else charsLe as bs

/-- Python's string order. -/
def pyle (s t : String) : Prop := charsLe s.data t.data = true

instance : DecidableRel pyle := fun s t => instDecidableEqBool (charsLe s.data t.data) true

theorem charsLe_total : ∀ as bs, charsLe as bs = true ∨ charsLe bs as = true := by
  intro as
  induction as with
  | nil => intro bs; left; rfl
  | cons a as ih =>
    intro bs
    cases bs with
    | nil => right; rfl
    | cons b bs =>
      rcases lt_trichotomy a b with h | h | h
      · left; simp [charsLe, h]
      · subst h
        rcases ih bs with h2 | h2
        · left; simp [charsLe, lt_irrefl, h2]
        · right; simp [charsLe, lt_irrefl, h2]
      · right; simp [charsLe, h]

theorem charsLe_trans : ∀ as bs cs, charsLe as bs = true → charsLe bs cs = true →
    charsLe as cs = true := by
  intro as
  induction as with
  | nil => intro bs cs _ _; rfl
  | cons a as ih =>
    intro bs cs h1 h2
    cases bs with
    | nil => simp [charsLe] at h1
    | cons b bs =>
      cases cs with
      | nil => simp [charsLe] at h2
      | cons c cs =>
        simp only [charsLe] at h1 h2 ⊢
        rcases lt_trichotomy a b with hab | hab | hab
        · rcases lt_trichotomy b c with hbc | hbc | hbc
          · simp [lt_trans hab hbc]
          · subst hbc; simp [hab]
          · rw [if_neg (lt_asymm hbc), if_pos hbc] at h2; exact absurd h2 (by simp)
        · subst hab
          rcases lt_trichotomy a c with hac | hac | hac
          · simp [hac]
          · subst hac
            rw [if_neg (lt_irrefl a)] at h1 h2 ⊢
            rw [if_neg (lt_irrefl a)] at h1 h2 ⊢
            exact ih bs cs h1 h2
          · rw [if_neg (lt_asymm hac), if_pos hac] at h2; exact absurd h2 (by simp)
        · rw [if_neg (lt_asymm hab), if_pos hab] at h1; exact absurd h1 (by simp)

theorem charsLe_antisymm : ∀ as bs, charsLe as bs = true → charsLe bs as = true →
    as = bs := by
  intro as
  induction as with
  | nil =>
    intro bs _ h2
    cases bs with
    | nil => rfl
    | cons b bs => simp [charsLe] at h2
  | cons a as ih =>
    intro bs h1 h2
    cases bs with
    | nil => simp [charsLe] at h1
    | cons b bs =>
      simp only [charsLe] at h1 h2
      rcases lt_trichotomy a b with hab | hab | hab
      · rw [if_neg (lt_asymm hab), if_pos hab] at h2; exact absurd h2 (by simp)
      · subst hab
        rw [if_neg (lt_irrefl a), if_neg (lt_irrefl a)] at h1 h2
        rw [ih bs h1 h2]
      · rw [if_neg (lt_asymm hab), if_pos hab] at h1; exact absurd h1 (by simp)

instance : IsTotal String pyle := ⟨fun a b => charsLe_total a.data b.data⟩

instance : IsTrans String pyle := ⟨fun a b c => charsLe_trans a.data b.data c.data⟩

instance : IsAntisymm String pyle :=
  ⟨fun a b h1 h2 => by
    cases a; cases b
    exact congrArg String.mk (charsLe_antisymm _ _ h1 h2)⟩

/-- `sorted(s)` for a set of strings: the unique `pyle`-sorted enumeration,
computed by (kernel-reducible) insertion sort on any representative. -/
def finSort (s : Finset String) : List String :=
  Quotient.liftOn s.val (fun l => l.insertionSort pyle)
    (fun l1 l2 (h : l1.Perm l2) => List.eq_of_perm_of_sorted
      (((List.perm_insertionSort pyle l1).trans h).trans
        (List.perm_insertionSort pyle l2).symm)
      (List.sorted_insertionSort pyle l1) (List.sorted_insertionSort pyle l2))

theorem mem_finSort {a : String} {s : Finset String} : a ∈ finSort s ↔ a ∈ s := by
  rcases s with ⟨v, hv⟩
  induction v using Quotient.inductionOn with
  | h l =>
    show a ∈ l.insertionSort pyle ↔ _
    rw [List.mem_insertionSort]
    exact Iff.symm (Finset.mem_mk.trans (Multiset.mem_coe))

theorem finSort_toFinset (s : Finset String) : (finSort s).toFinset = s := by
  ext a
  rw [List.mem_toFinset, mem_finSort]

/-- `accept` (src/tools/nfa.py lines 117-131): simulate the nondeterministic
run; the `for symbol in string` loop is a left fold over the input symbols,
and the result is `bool(current_state.intersection(self._final_states))`. -/
def accept (A : NFA) (input : List String) : Bool :=
  decide ((input.foldl
      (fun current symbol => current.biUnion (fun state => tget A.transitions (state, symbol)))
      {A.initial_state} ∩ A.final_states).Nonempty)

/-- One step of the run the spec describes: replace the current set with the
union of its members' transition targets for the symbol (members with no
entry contributing nothing). -/
def stepSet (A : NFA) (current : Finset String) (symbol : String) : Finset String :=
  current.biUnion (fun state => tget A.transitions (state, symbol))

/-- The manually traced run of the spec, by recursion on the input. -/
def runFrom (A : NFA) (current : Finset String) : List String → Finset String
  | [] => current
  | symbol :: rest => runFrom A (stepSet A current symbol) rest

theorem runFrom_eq_foldl (A : NFA) (input : List String) (current : Finset String) :
    runFrom A current input = input.foldl (stepSet A) current := by
  induction input generalizing current with
  | nil => rfl
  | cons s rest ih => simp [runFrom, List.foldl, ih]

/-- C1: `accept(string)` is true iff the state set obtained by starting from
`{initial_state}` and replacing, for each input symbol in order, the current
set with the union of its members' transition targets for that symbol has a
non-empty intersection with `final_states` after the whole input. -/
theorem accept_iff_traced_run (A : NFA) (input : List String) :
    accept A input = true ↔
      ((runFrom A {A.initial_state} input) ∩ A.final_states).Nonempty := by
  rw [runFrom_eq_foldl]
  show decide ((input.foldl (stepSet A) {A.initial_state} ∩ A.final_states).Nonempty)
        = true ↔ _
  exact decide_eq_true_iff

/-- `add_state` (lines 57-61): the first state added to an automaton whose
initial state is still unset (the empty string, falsy in Python) also becomes
the initial state. -/
def add_state (A : NFA) (state : String) : NFA :=
  { A with
    initial_state := if A.initial_state = "" then state else A.initial_state
    states := insert state A.states }

/-- C10: with the initial state unset, `add_state(s)` makes `s` a member of
the state set and the initial state; with it set, `add_state(s)` adds `s` to
the state set and leaves the initial state unchanged. -/
theorem add_state_spec (A : NFA) (s : String) :
    ((add_state A s).states = insert s A.states) ∧
    (A.initial_state = "" → (add_state A s).initial_state = s) ∧
    (A.initial_state ≠ "" → (add_state A s).initial_state = A.initial_state) := by
  refine ⟨rfl, fun h => ?_, fun h => ?_⟩ <;> simp [add_state, h]

/-- `set_transition` (lines 105-115).  An empty target set pops the entry (no
error, present or not); a non-empty target set is stored when every target is
a known state, and otherwise a `KeyError` naming `next_states - self._states`
is raised.  The error is embedded as that set of missing states (the Python
message is a comma-joined rendering of it). -/
def set_transition (A : NFA) (state symbol : String) (next_states : Finset String) :
    Except (Finset String) NFA :=
  if next_states = ∅ then
    .ok { A with transitions := tdel A.transitions (state, symbol) }
  else if next_states ⊆ A.states then
    .ok { A with transitions := tset A.transitions (state, symbol) next_states }
  else
    .error (next_states \ A.states)

/-- C8: `set_transition` with an empty target set deletes the entry and never
raises (even when absent); with a non-empty target set it raises a
`KeyError` naming exactly the targets outside the state set iff some target
is missing, and otherwise stores exactly the given target set (all other
entries untouched in either successful case). -/
theorem set_transition_spec (A : NFA) (state symbol : String) (T : Finset String) :
    (T = ∅ → ∃ A2, set_transition A state symbol T = .ok A2 ∧
        tlookup A2.transitions (state, symbol) = none ∧
        (∀ k, k ≠ (state, symbol) → tlookup A2.transitions k = tlookup A.transitions k)) ∧
    (T.Nonempty → ¬ T ⊆ A.states →
        set_transition A state symbol T = .error (T \ A.states)) ∧
    (T.Nonempty → T ⊆ A.states → ∃ A2, set_transition A state symbol T = .ok A2 ∧
        tlookup A2.transitions (state, symbol) = some T ∧
        (∀ k, k ≠ (state, symbol) → tlookup A2.transitions k = tlookup A.transitions k)) ∧
    ((∃ M, set_transition A state symbol T = .error M) ↔ (T.Nonempty ∧ ¬ T ⊆ A.states)) := by
  refine ⟨fun h => ?_, fun hne hsub => ?_, fun hne hsub => ?_, ?_⟩
  · subst h
    exact ⟨{ A with transitions := tdel A.transitions (state, symbol) },
      by simp [set_transition],
      tlookup_tdel_self A.transitions (state, symbol),
      fun k hk => tlookup_tdel_other A.transitions (state, symbol) k hk⟩
  · have h0 : T ≠ ∅ := Finset.nonempty_iff_ne_empty.mp hne
    simp [set_transition, h0, hsub]
  · have h0 : T ≠ ∅ := Finset.nonempty_iff_ne_empty.mp hne
    exact ⟨{ A with transitions := tset A.transitions (state, symbol) T },
      by simp [set_transition, h0, hsub],
      tlookup_tset_self A.transitions (state, symbol) T,
      fun k hk => tlookup_tset_other A.transitions (state, symbol) k T hk⟩
  · constructor
    · rintro ⟨M, hM⟩
      by_cases h0 : T = ∅
      · simp [set_transition, h0] at hM
      · by_cases hsub : T ⊆ A.states
        · simp [set_transition, h0, hsub] at hM
        · exact ⟨Finset.nonempty_iff_ne_empty.mpr h0, hsub⟩
    · rintro ⟨hne, hsub⟩
      have h0 : T ≠ ∅ := Finset.nonempty_iff_ne_empty.mp hne
      exact ⟨T \ A.states, by simp [set_transition, h0, hsub]⟩

/-- Invariant 3 of the spec's data model: every symbol used as a transition
key belongs to the alphabet. -/
def symbolsOK (A : NFA) : Prop := ∀ kv ∈ A.transitions, kv.1.2 ∈ A.alphabet

instance (A : NFA) : Decidable (symbolsOK A) := List.decidableBAll _ _

/-- A one-state automaton with an empty alphabet. -/
def exC6 : NFA := ⟨{"q"}, ∅, [], "q", ∅⟩

/-- C6 fails on the code: `set_transition` never checks the symbol against
the alphabet, so a call with a symbol outside the alphabet succeeds and
breaks invariant 3 even though it held before the call. -/
theorem set_transition_breaks_symbol_invariant :
    symbolsOK exC6 ∧
    set_transition exC6 "q" "a" {"q"} =
      .ok ⟨{"q"}, ∅, [(("q", "a"), {"q"})], "q", ∅⟩ ∧
    ¬ symbolsOK ⟨{"q"}, ∅, [(("q", "a"), {"q"})], "q", ∅⟩ := by
  refine ⟨by decide, by decide, by decide⟩

/-- C6 amended: `set_transition` with a non-empty target set preserves
invariant 3 provided the symbol it is given is already in the alphabet (the
code performs no alphabet-membership check itself, hence the proviso; the
empty-set deleting call preserves it unconditionally since it only removes
an entry). -/
theorem set_transition_preserves_symbolsOK (A : NFA) (state symbol : String)
    (T : Finset String) (A2 : NFA) (hA : symbolsOK A) (hs : symbol ∈ A.alphabet)
    (h : set_transition A state symbol T = .ok A2) : symbolsOK A2 := by
  unfold set_transition at h
  by_cases h0 : T = ∅
  · rw [if_pos h0] at h
    obtain rfl := Except.ok.inj h
    intro kv hkv
    exact hA kv (mem_tdel A.transitions (state, symbol) kv hkv)
  · rw [if_neg h0] at h
    by_cases hsub : T ⊆ A.states
    · rw [if_pos hsub] at h
      obtain rfl := Except.ok.inj h
      intro kv hkv
      rcases mem_tset A.transitions (state, symbol) T kv hkv with he | he
      · rw [he]; exact hs
      · exact hA kv he
    · rw [if_neg hsub] at h
      exact absurd h (fun he => Except.noConfusion he)

/-- Witness for the amended C6 at a concrete input. -/
theorem set_transition_preserves_symbolsOK_witness :
    symbolsOK ⟨{"p", "q"}, {"a"}, [(("p", "a"), {"q"})], "p", ∅⟩ :=
  set_transition_preserves_symbolsOK
    ⟨{"p", "q"}, {"a"}, [], "p", ∅⟩ "p" "a" {"q"}
    ⟨{"p", "q"}, {"a"}, [(("p", "a"), {"q"})], "p", ∅⟩
    (by decide) (by decide) (by decide)

/-! ### Codec (`save` / `load`, lines 458-481) -/

/-- The structured JSON record written by `save`: sorted state, alphabet and
final-state sequences, the transition dictionary as a sequence of
`(state, symbol, sorted targets)` triples in dictionary order, and the
initial state.  File-path handling is outside the engine per the spec. -/
structure AutomatonRecord where
  states : List String
  alphabet : List String
  transitions : List (String × String × List String)
  initial_state : String
  final_states : List String
deriving DecidableEq

/-- `save` (lines 458-468), minus the file I/O: the record it serializes. -/
def save (A : NFA) : AutomatonRecord :=
  { states := finSort A.states
    alphabet := finSort A.alphabet
    transitions := A.transitions.map (fun kv => (kv.1.1, kv.1.2, finSort kv.2))
    initial_state := A.initial_state
    final_states := finSort A.final_states }

/-- `load` (lines 470-481), minus the file I/O: the transition dictionary is
rebuilt by a comprehension, i.e. one dict assignment per triple in order. -/
def load (r : AutomatonRecord) : NFA :=
  { states := r.states.toFinset
    alphabet := r.alphabet.toFinset
    transitions := r.transitions.foldl (fun ts t => tset ts (t.1, t.2.1) t.2.2.toFinset) []
    initial_state := r.initial_state
    final_states := r.final_states.toFinset }

theorem foldl_tset_of_saved (ts acc : List ((String × String) × Finset String))
    (hfresh : ∀ kv ∈ ts, tlookup acc kv.1 = none)
    (hnodup : (ts.map Prod.fst).Nodup) :
    (ts.map (fun kv => (kv.1.1, kv.1.2, finSort kv.2))).foldl
        (fun ts2 t => tset ts2 (t.1, t.2.1) t.2.2.toFinset) acc = acc ++ ts := by
  induction ts generalizing acc with
  | nil => simp
  | cons kv rest ih =>
    simp only [List.map_cons, List.foldl_cons]
    have h1 : tlookup acc (kv.1.1, kv.1.2) = none := by
      have h := hfresh kv (List.mem_cons_self kv rest)
      simpa using h
    have h2 : tset acc (kv.1.1, kv.1.2) (finSort kv.2).toFinset = acc ++ [kv] := by
      unfold tset
      rw [if_neg (by rw [h1]; simp), finSort_toFinset]
    rw [h2]
    have hhead : kv.1 ∉ rest.map Prod.fst := by
      simp only [List.map_cons, List.nodup_cons] at hnodup
      exact hnodup.1
    have hfresh2 : ∀ kv2 ∈ rest, tlookup (acc ++ [kv]) kv2.1 = none := by
      intro kv2 hkv2
      rw [tlookup_append_single acc kv.1 kv2.1 kv.2]
      have h3 : tlookup acc kv2.1 = none := hfresh kv2 (List.mem_cons_of_mem kv hkv2)
      rw [h3]
      have h4 : kv.1 ≠ kv2.1 := by
        intro he
        exact hhead (he ▸ List.mem_map_of_mem Prod.fst hkv2)
      simp [h4]
    have hnodup2 : (rest.map Prod.fst).Nodup := by
      simp only [List.map_cons, List.nodup_cons] at hnodup
      exact hnodup.2
    rw [ih (acc ++ [kv]) hfresh2 hnodup2, List.append_assoc]
    simp

/-- C9: loading the record produced by saving `A` reconstructs an automaton
whose state set, alphabet, transition mapping, initial state and final-state
set equal those of `A` (in this embedding the whole structure is equal), so
the round trip is language-preserving.  The hypothesis states the Python
dict's key-uniqueness, which every dict has by construction. -/
theorem load_save_roundtrip (A : NFA) (h : (A.transitions.map Prod.fst).Nodup) :
    load (save A) = A ∧ ∀ s, accept (load (save A)) s = accept A s := by
  have htr : (load (save A)).transitions = A.transitions := by
    show (A.transitions.map (fun kv => (kv.1.1, kv.1.2, finSort kv.2))).foldl
        (fun ts2 t => tset ts2 (t.1, t.2.1) t.2.2.toFinset) [] = A.transitions
    rw [foldl_tset_of_saved A.transitions [] (fun kv _ => rfl) h]
    rfl
  have heq : load (save A) = A := by
    have h1 : (load (save A)).states = A.states := finSort_toFinset _
    have h2 : (load (save A)).alphabet = A.alphabet := finSort_toFinset _
    have h3 : (load (save A)).final_states = A.final_states := finSort_toFinset _
    have h4 : (load (save A)).initial_state = A.initial_state := rfl
    cases hL : load (save A)
    rw [hL] at h1 h2 h3 h4 htr
    cases A
    simp only at h1 h2 h3 h4 htr
    simp [h1, h2, h3, h4, htr]
  exact ⟨heq, fun s => by rw [heq]⟩

/-- Witness for C9 at a concrete two-transition automaton. -/
theorem load_save_roundtrip_witness :
    load (save ⟨{"p", "q"}, {"a", "b"},
        [(("p", "a"), {"p", "q"}), (("q", "b"), {"p"})], "p", {"q"}⟩) =
      ⟨{"p", "q"}, {"a", "b"}, [(("p", "a"), {"p", "q"}), (("q", "b"), {"p"})], "p", {"q"}⟩ :=
  (load_save_roundtrip
    ⟨{"p", "q"}, {"a", "b"}, [(("p", "a"), {"p", "q"}), (("q", "b"), {"p"})], "p", {"q"}⟩
    (by decide)).1

/-! ### Canonicalizer (`beautify_qn` / `beautify_abc`, lines 325-361) and
union (lines 363-401) -/

/-- The renaming dictionary built by `beautify_qn`: the initial state maps to
`q0`, the remaining states (sorted) map to `q1..qn`.  Python raises
`KeyError` when `_beautify` applies the dictionary to a name outside the
state set; the identity default below is never reached on the automata the
claims evaluate, whose references all lie inside the state set. -/
def qnName (A : NFA) (s : String) : String :=
  if s = A.initial_state then "q0"
  else
    match (finSort (A.states.erase A.initial_state)).findIdx? (fun t => t == s) with
    | some i => "q" ++ toString (i + 1)
    | none => s

/-- The position-to-letter counter of `beautify_abc`: numbers run 0..17 and
then skip 18 (`S`, reserved for the initial state). -/
def abcNum (i : Nat) : Nat := if i ≤ 17 then i else i + 1

/-- The renaming dictionary built by `beautify_abc`: the initial state maps to
`S`, the remaining states (sorted) map to `A`, `B`, ... skipping `S`. -/
def abcName (A : NFA) (s : String) : String :=
  if s = A.initial_state then "S"
  else
    match (finSort (A.states.erase A.initial_state)).findIdx? (fun t => t == s) with
    | some i => String.singleton (Char.ofNat (65 + abcNum i))
    | none => s

/-- `_beautify` (lines 349-361): apply a renaming dictionary to the initial
state, the state set (Python takes the set of all dictionary values, whose
keys are `{initial} ∪ states`), every transition key and target, and the
final-state set. -/
def applyRename (A : NFA) (m : String → String) : NFA :=
  { states := (insert A.initial_state A.states).image m
    alphabet := A.alphabet
    transitions := A.transitions.map (fun kv => ((m kv.1.1, kv.1.2), kv.2.image m))
    initial_state := m A.initial_state
    final_states := A.final_states.image m }

/-- `beautify_qn` (lines 325-333). -/
def beautify_qn (A : NFA) : NFA := applyRename A (qnName A)

/-- `beautify_abc` (lines 335-347): fails when there are more than 26
states. -/
def beautify_abc (A : NFA) : Except String NFA :=
  if 26 < A.states.card then .error "Too many states"
  else .ok (applyRename A (abcName A))

/-- `dict.update(other)`: one assignment per entry of `other`, in order. -/
def dictUpdate (ts us : List ((String × String) × Finset String)) :
    List ((String × String) × Finset String) :=
  us.foldl (fun acc kv => tset acc kv.1 kv.2) ts

/-- `union` (lines 363-401).  After the alphabet check, `self` is renamed
alphabetically and `other` sequentially, a fresh state `qinitial` is added
and made initial, the two automata's states, final states and transitions
are merged, the fresh initial state receives per-symbol transitions equal to
the union of the two original initials' rows, and the merged automaton is
renamed sequentially.  The Python line
`if initial_states.intersection(self._final_states) != None:` compares a set
to `None`, which is always true, so the fresh initial state is added to the
final states unconditionally. -/
def union (A B : NFA) : Except String NFA :=
  if finSort A.alphabet ≠ finSort B.alphabet then
    .error "The alphabets are different!"
  else
    match beautify_abc A with
    | .error e => .error e
    | .ok A1 =>
      let B1 := beautify_qn B
      let fi := A1.initial_state
      let si := B1.initial_state
      let A2 := add_state A1 "qinitial"
      let A3 := { A2 with initial_state := "qinitial" }
      let A4 := { A3 with
        states := A3.states ∪ insert B1.initial_state B1.states
        final_states := A3.final_states ∪ B1.final_states
        transitions := dictUpdate A3.transitions B1.transitions }
      let A5 := { A4 with final_states := insert "qinitial" A4.final_states }
      let A6 := (finSort A5.alphabet).foldl (fun C symbol =>
        let t1 := (tlookup C.transitions (fi, symbol)).getD ∅
        let t2 := (tlookup B1.transitions (si, symbol)).getD ∅
        { C with transitions := tset C.transitions ("qinitial", symbol) (t1 ∪ t2) }) A5
      .ok (beautify_qn A6)

/-- Two one-state automata over `{a}` with no final states. -/
def exUA : NFA := ⟨{"s"}, {"a"}, [], "s", ∅⟩

/-- Second operand for the union counterexample. -/
def exUB : NFA := ⟨{"t"}, {"a"}, [], "t", ∅⟩

/-- C3 fails on the code: neither operand's initial state is final, yet the
freshly synthesized initial state of the union ends up final, because the
source compares `initial_states.intersection(self._final_states)` to `None`
(always unequal for a set) instead of testing emptiness.  The union hence
accepts the empty string although neither operand does. -/
theorem union_initial_always_final :
    exUA.initial_state ∉ exUA.final_states ∧
    exUB.initial_state ∉ exUB.final_states ∧
    (union exUA exUB).map (fun U => decide (U.initial_state ∈ U.final_states)) =
      .ok true ∧
    accept exUA [] = false ∧ accept exUB [] = false ∧
    (union exUA exUB).map (fun U => accept U []) = .ok true := by
  refine ⟨by decide, by decide, by decide, by decide, by decide, by decide⟩

/-! ### `is_finite` (lines 297-323) -/

/-- `_find_reachable` (lines 271-281): the targets reachable from a set of
states through transitions on one symbol. -/
def find_reachable (A : NFA) (states : Finset String) (symbol : String) : Finset String :=
  states.biUnion (fun s => tget A.transitions (s, symbol))

/-- `_has_recursion` (lines 301-323): breadth-first search from the queue,
declaring recursion when a popped state's successor set meets the visited
set.  Python's unbounded recursion is embedded with a fuel argument; the
fuel the callers pass exceeds the number of queue entries every concrete
run below consumes, so the `0` default is never reached there.  The append
order of `reachable.difference(visited)` (a Python set iteration) is
rendered sorted. -/
def has_recursion : Nat → NFA → List String → Finset String → Bool
  | 0, _, _, _ => false
  | fuel + 1, A, to_visit, visited =>
    match to_visit with
    | [] => false
    | actual :: rest =>
      let visited2 := insert actual visited
      let reachable := (finSort A.alphabet).foldl
        (fun r symbol => r ∪ find_reachable A {actual} symbol) ∅
      if (reachable ∩ visited2).Nonempty then true
      else has_recursion fuel A (rest ++ finSort (reachable \ visited2)) visited2

/-- `is_finite` (lines 297-299): true iff the breadth-first search finds no
recursion starting from the initial state. -/
def is_finite (A : NFA) : Bool :=
  let pool := insert A.initial_state
    (A.states ∪ A.transitions.foldl (fun acc kv => acc ∪ kv.2) ∅)
  !(has_recursion (2 ^ (pool.card + 2)) A [A.initial_state] ∅)

/-- A one-state automaton whose only state loops on `a` and is not final:
its language is empty. -/
def exFin : NFA := ⟨{"q0"}, {"a"}, [(("q0", "a"), {"q0"})], "q0", ∅⟩

/-- C5 fails on the code: the cycle through `q0` cannot reach any final
state (there are none), so the language is empty — finite — yet
`is_finite()` reports false because `_has_recursion` flags every reachable
cycle regardless of whether a final state is reachable from it. -/
theorem is_finite_false_on_finite_language :
    is_finite exFin = false ∧ ∀ s, accept exFin s = false := by
  refine ⟨by decide, fun s => ?_⟩
  simp [accept, exFin]

/-! ### Minimizer (`minimize`, lines 133-234) -/

/-- `is_deterministic` (lines 283-286): every transition entry has exactly
one target. -/
def is_deterministic (A : NFA) : Bool := A.transitions.all (fun kv => kv.2.card == 1)

/-- `remove_state` (lines 63-83): a no-op for the initial state; otherwise
the state leaves the state and final sets, entries keyed by it on an
alphabet symbol are deleted, it is discarded from every remaining target
set, and entries whose target set becomes empty are deleted. -/
def remove_state (A : NFA) (state : String) : NFA :=
  if state = A.initial_state then A
  else
    let ts1 := A.transitions.filter
      (fun kv => !(decide (kv.1.1 = state) && decide (kv.1.2 ∈ A.alphabet)))
    let ts2 := (ts1.map (fun kv => (kv.1, kv.2.erase state))).filter
      (fun kv => decide kv.2.Nonempty)
    { A with
      states := A.states.erase state
      final_states := A.final_states.erase state
      transitions := ts2 }

/-- Every name the reachability loops can mention: the states, the initial
state and every transition target. -/
def statePool (A : NFA) : Finset String :=
  insert A.initial_state
    (A.states ∪ A.transitions.foldl (fun acc kv => acc ∪ kv.2) ∅)

/-- The forward fixpoint of `remove_unreachable` (lines 147-156), with fuel:
each pass that does not stop strictly grows `reachable` inside the finite
pool, and callers pass more fuel than that pool's size, so the `0` case is
never reached by them. -/
def reachFix : Nat → NFA → Finset String → Finset String → Finset String
  | 0, _, reachable, _ => reachable
  | fuel + 1, A, reachable, newR =>
    if newR ⊆ reachable then reachable
    else reachFix fuel A (reachable ∪ newR)
      (newR.biUnion (fun s => A.alphabet.biUnion
        (fun symbol => tget A.transitions (s, symbol))))

/-- `remove_unreachable` (lines 145-159).  The removal loop iterates the
Python set `self._states - reachable`; its order is rendered sorted. -/
def remove_unreachable (A : NFA) : NFA :=
  let reach := reachFix ((statePool A).card + 1) A ∅ {A.initial_state}
  (finSort (A.states \ reach)).foldl remove_state A

/-- The backward fixpoint of `remove_dead` (lines 163-170), with fuel as for
`reachFix`: a state joins `new_alive` when one of its rows meets the updated
`alive` set. -/
def deadFix : Nat → NFA → Finset String → Finset String → Finset String
  | 0, _, alive, _ => alive
  | fuel + 1, A, alive, newA =>
    if newA ⊆ alive then alive
    else
      let alive2 := alive ∪ newA
      deadFix fuel A alive2
        ((A.transitions.filter (fun kv => decide (kv.2 ∩ alive2).Nonempty)).map
          (fun kv => kv.1.1)).toFinset

/-- `remove_dead` (lines 161-173), removal order rendered sorted. -/
def remove_dead (A : NFA) : NFA :=
  let pool := A.final_states ∪ (A.transitions.map (fun kv => kv.1.1)).toFinset
  let alive := deadFix (pool.card + 1) A ∅ A.final_states
  (finSort (A.states \ alive)).foldl remove_state A

/-- `list(self._transitions.get((state, symbol), {""}))[0]` (lines 210-218):
the element of the (for a deterministic automaton, singleton) row, and the
`""` placeholder when the row is absent.  For a multi-element row Python's
pick is arbitrary; the model takes the least element, and `merge_equivalent`
only runs this code behind its determinism guard. -/
def tfirst (A : NFA) (q symbol : String) : String :=
  match tlookup A.transitions (q, symbol) with
  | some v => (finSort v).headD ""
  | none => ""

/-- The smaller of two strings in Python's order. -/
def pmin (a b : String) : String := if charsLe a.data b.data then a else b

/-- The larger of two strings in Python's order. -/
def pmax (a b : String) : String := if charsLe a.data b.data then b else a

/-- `_are_undistinguishable` (lines 203-219): the pair survives iff on every
symbol the two rows' targets are equal or themselves a candidate pair
(frozensets rendered as sorted pairs). -/
def areUndist (A : NFA) (a b : String) (U : List (String × String)) : Bool :=
  (finSort A.alphabet).all (fun symbol =>
    let ta := tfirst A a symbol
    let tb := tfirst A b symbol
    decide (ta = tb) || decide ((pmin ta tb, pmax ta tb) ∈ U))

/-- Strict version of Python's string order. -/
def pltB (a b : String) : Bool := charsLe a.data b.data && !(decide (a = b))

/-- `itertools.combinations(s, 2)`: the unordered pairs of distinct members
of a set, as sorted pairs. -/
def pairsOf (s : Finset String) : List (String × String) :=
  (finSort s).flatMap
    (fun a => ((finSort s).filter (fun b => pltB a b)).map (fun b => (a, b)))

/-- The table-filling loop of `merge_equivalent` (lines 190-198): drop every
candidate pair that fails `_are_undistinguishable` against the pass's
starting set, until a pass drops nothing.  Each non-final pass strictly
shrinks the list, so the callers' fuel (`length + 1`) is never exhausted. -/
def mergeFix : Nat → NFA → List (String × String) → List (String × String)
  | 0, _, U => U
  | fuel + 1, A, U =>
    let U2 := U.filter (fun p => areUndist A p.1 p.2 U)
    if U2 = U then U else mergeFix fuel A U2

/-- `_merge_states` (lines 221-234): merge `b` into `a` unless that would
remove the initial state or the kept state is already gone, rewrite every
target set equal to `{removed}` into `{kept}`, and remove the removed
state. -/
def merge_states (A : NFA) (a b : String) : NFA :=
  let swap := b = A.initial_state ∨ a ∉ A.states
  let rem := if swap then a else b
  let kept := if swap then b else a
  let ts := A.transitions.map
    (fun kv => if kv.2 = {rem} then (kv.1, ({kept} : Finset String)) else kv)
  remove_state { A with transitions := ts } rem

/-- The body of `merge_equivalent` after its determinism guard (lines
180-201), the set iterations rendered sorted. -/
def merge_core (A : NFA) : NFA :=
  let U0 := pairsOf (A.states \ A.final_states) ++ pairsOf A.final_states
  let U := mergeFix (U0.length + 1) A U0
  U.foldl (fun B p => merge_states B p.1 p.2) A

/-- `merge_equivalent` (lines 175-201): raises on a non-deterministic
automaton, otherwise merges undistinguishable pairs. -/
def merge_equivalent (A : NFA) : Except String NFA :=
  if is_deterministic A then .ok (merge_core A)
  else .error "Automata is non-deterministic"

/-- `minimize` (lines 133-143) as a run: the raised error message (if any)
and the receiver's state when the call returns or raises.  The guard raises
before any mutation; `merge_equivalent` re-checks determinism after the two
pruning phases. -/
def minimizeRun (A : NFA) : Option String × NFA :=
  if is_deterministic A then
    let A1 := remove_dead (remove_unreachable A)
    match merge_equivalent A1 with
    | .ok A2 => (none, A2)
    | .error e => (some e, A1)
  else (some "Automata is non-deterministic", A)

theorem is_deterministic_remove_state (A : NFA) (s : String)
    (h : is_deterministic A = true) : is_deterministic (remove_state A s) = true := by
  unfold remove_state
  by_cases hs : s = A.initial_state
  · rw [if_pos hs]; exact h
  · rw [if_neg hs]
    simp only [is_deterministic, List.all_eq_true] at h ⊢
    intro kv hkv
    have h1 := List.mem_of_mem_filter hkv
    have h2 := List.of_mem_filter hkv
    simp only [decide_eq_true_eq] at h2
    obtain ⟨kv0, hkv0, heq⟩ := List.mem_map.mp h1
    have h3 : kv0 ∈ A.transitions := List.mem_of_mem_filter hkv0
    have h4 := h kv0 h3
    obtain ⟨x, hx⟩ := Finset.card_eq_one.mp (by simpa using h4)
    by_cases hxs : x = s
    · exfalso
      have he : kv.2 = ∅ := by rw [← heq, hx, hxs]; simp
      rw [he] at h2
      exact Finset.not_nonempty_empty h2
    · have : kv.2 = {x} := by
        rw [← heq, hx, Finset.erase_eq_of_not_mem]
        simp [Ne.symm hxs]
      simp [this]

theorem is_deterministic_fold_remove (l : List String) (A : NFA)
    (h : is_deterministic A = true) :
    is_deterministic (l.foldl remove_state A) = true := by
  induction l generalizing A with
  | nil => exact h
  | cons s rest ih => exact ih _ (is_deterministic_remove_state A s h)

theorem is_deterministic_remove_unreachable (A : NFA)
    (h : is_deterministic A = true) :
    is_deterministic (remove_unreachable A) = true :=
  is_deterministic_fold_remove _ A h

theorem is_deterministic_remove_dead (A : NFA)
    (h : is_deterministic A = true) :
    is_deterministic (remove_dead A) = true :=
  is_deterministic_fold_remove _ A h

/-- C7: `minimize()` raises the "non-deterministic" error iff
`is_deterministic()` is false at the time of the call — the two pruning
phases preserve determinism, so `merge_equivalent`'s inner guard never
fires — and when it raises, the automaton is unchanged. -/
theorem minimize_error_iff (A : NFA) :
    ((minimizeRun A).1 = some "Automata is non-deterministic" ↔
      is_deterministic A = false) ∧
    ((minimizeRun A).1.isSome → (minimizeRun A).2 = A) := by
  by_cases h : is_deterministic A = true
  · have hd : is_deterministic (remove_dead (remove_unreachable A)) = true :=
      is_deterministic_remove_dead _ (is_deterministic_remove_unreachable _ h)
    constructor
    · simp [minimizeRun, h, merge_equivalent, hd]
    · simp [minimizeRun, h, merge_equivalent, hd]
  · have hf : is_deterministic A = false := by
      cases hb : is_deterministic A
      · rfl
      · exact absurd hb h
    constructor <;> simp [minimizeRun, hf]

/-! ### `is_empty` (lines 288-295) and its shallow-copy aliasing

`is_empty` builds `NFA(self._states.copy(), ..., self._transitions.copy(), ...)`
and prunes it.  `dict.copy()` is shallow: the copy's keys are fresh but each
key still maps to the *same* target-set object as the receiver's dictionary.
`remove_state` on the copy both deletes keys (which only affects the copy)
and runs `next_state.discard(state)` on the values (which mutates the shared
set objects in place).  The model identifies each shared set object by its
original dictionary key — unique, since dict keys are unique — and tracks the
object contents in `heap` while the copy's own key list shrinks. -/

/-- The disposable copy inside `is_empty`, plus the shared heap of target-set
objects. -/
structure IsEmptyCopy where
  cstates : Finset String
  cfinal : Finset String
  ckeys : List (String × String)
  heap : List ((String × String) × Finset String)

/-- `remove_state` as executed on the copy: key deletions touch only
`ckeys`, while `discard` mutates the shared objects of every entry still
present in the copy. -/
def copyRemoveState (alphabet : Finset String) (initial : String)
    (C : IsEmptyCopy) (s : String) : IsEmptyCopy :=
  if s = initial then C
  else
    let keys1 := C.ckeys.filter (fun k => !(decide (k.1 = s) && decide (k.2 ∈ alphabet)))
    let heap1 := C.heap.map (fun kv => if kv.1 ∈ keys1 then (kv.1, kv.2.erase s) else kv)
    let keys2 := keys1.filter (fun k => decide (tget heap1 k).Nonempty)
    { cstates := C.cstates.erase s
      cfinal := C.cfinal.erase s
      ckeys := keys2
      heap := heap1 }

/-- One `is_empty` call with the removal loop's Python-set iteration order
given explicitly: the boolean result and the receiver's state after the
call (its own key list is untouched, but each entry's shared target-set
object now holds the heap contents). -/
def is_emptyRunOrd (A : NFA) (order : List String) : Bool × NFA :=
  let C0 : IsEmptyCopy :=
    { cstates := A.states
      cfinal := A.final_states
      ckeys := A.transitions.map (fun kv => kv.1)
      heap := A.transitions }
  let C1 := order.foldl (copyRemoveState A.alphabet A.initial_state) C0
  (decide (C1.cfinal.card = 0),
    { A with transitions := A.transitions.map (fun kv => (kv.1, tget C1.heap kv.1)) })

/-- `is_empty` (lines 288-295): the reachability fixpoint runs before any
mutation, so it coincides with `reachFix` on the receiver; the removal order
is rendered sorted. -/
def is_emptyRun (A : NFA) : Bool × NFA :=
  let reach := reachFix ((statePool A).card + 1) A ∅ {A.initial_state}
  is_emptyRunOrd A (finSort (A.states \ reach))

/-- Two unreachable states feeding each other: removing either on the copy
empties the other's shared target set. -/
def exEmpty : NFA :=
  ⟨{"q0", "q1", "q2"}, {"a"}, [(("q1", "a"), {"q2"}), (("q2", "a"), {"q1"})], "q0", ∅⟩

/-- C4 fails on the code: `is_empty` on `exEmpty` mutates the receiver — the
shallow dict copy shares the target-set objects, and pruning the unreachable
states `q1`, `q2` on the copy runs `discard` on those shared sets, emptying
the receiver's entry `("q2", "a")` (and under the other iteration order,
`("q1", "a")`).  The last two conjuncts show every iteration order of the
two-element Python set mutates the receiver. -/
theorem is_empty_mutates_receiver :
    (is_emptyRun exEmpty).2 ≠ exEmpty ∧
    tlookup exEmpty.transitions ("q2", "a") = some {"q1"} ∧
    tlookup (is_emptyRun exEmpty).2.transitions ("q2", "a") = some ∅ ∧
    (is_emptyRunOrd exEmpty ["q1", "q2"]).2 ≠ exEmpty ∧
    (is_emptyRunOrd exEmpty ["q2", "q1"]).2 ≠ exEmpty := by
  refine ⟨by decide, by decide, by decide, by decide, by decide⟩

/-! ### Determinizer (`determinize`, lines 236-281) -/

/-- `"".join(sorted(states_set))`: the synthesized composite name is the
concatenation of the member names in sorted order. -/
def joinS (S : Finset String) : String := String.mk ((finSort S).flatMap String.data)

/-- `_determinize_state` (lines 254-269): if the composite name is non-empty
and fresh, add it as a state, make it final when the member set meets the
final states, and for each alphabet symbol (sorted rendering of the Python
set iteration) store the reachable row and recurse on it.  Python's
unbounded recursion carries a fuel argument here; each recursive call is
preceded by the creation of a fresh state drawn from a fixed finite pool,
so the fuel `determinize` passes (more than that pool's size) is never
exhausted. -/
def determinizeState : Nat → NFA → Finset String → NFA
  | 0, A, _ => A
  | fuel + 1, A, S =>
    let name := joinS S
    if name = "" ∨ name ∈ A.states then A
    else
      let A1 := add_state A name
      let A2 := if (S ∩ A1.final_states).Nonempty
                then { A1 with final_states := insert name A1.final_states } else A1
      (finSort A2.alphabet).foldl (fun B symbol =>
        let R := find_reachable B S symbol
        if R.Nonempty then
          determinizeState fuel
            { B with transitions := tset B.transitions (name, symbol) R } R
        else B) A2

/-- `determinize` (lines 236-252): run `_determinize_state` on every original
entry with more than one target (the loop iterates a snapshot of the
dictionary, which only ever grows fresh keys), then rewrite every entry's
target set to the singleton holding its composite name. -/
def determinize (A : NFA) : NFA :=
  let fuel := 2 ^ A.states.card + 1
  let A1 := A.transitions.foldl
    (fun B kv => if 2 ≤ kv.2.card then determinizeState fuel B kv.2 else B) A
  { A1 with
    transitions := A1.transitions.map (fun kv => (kv.1, ({joinS kv.2} : Finset String))) }

/-- An automaton owning an atomic state `12` that collides with the composite
name synthesized for the target set `{1, 2}`. -/
def exDet : NFA := ⟨{"1", "2", "12"}, {"a"}, [(("1", "a"), {"1", "2"})], "1", {"2"}⟩

/-- C2 fails on the code: on `exDet` the composite for `{1, 2}` is named
`12`, which already exists as an (atomic, non-final, transitionless) state,
so `_determinize_state` skips it and the rewrite redirects the row to the
atomic `12`: the determinized automaton rejects `a` though `exDet` accepts
it.  (Spec section 9 flags exactly this unguarded name collision.) -/
theorem determinize_changes_language :
    accept exDet ["a"] = true ∧
    accept (determinize exDet) ["a"] = false ∧
    is_deterministic (determinize exDet) = true := by
  refine ⟨by decide, by decide, by decide⟩

theorem tlookup_map_values (ts : List ((String × String) × Finset String))
    (f : Finset String → Finset String) (k : String × String) :
    tlookup (ts.map (fun kv => (kv.1, f kv.2))) k = (tlookup ts k).map f := by
  induction ts with
  | nil => rfl
  | cons kv rest ih =>
    by_cases h : kv.1 = k <;> simp [tlookup_cons, h, ih]

theorem tlookup_map_join (ts : List ((String × String) × Finset String))
    (k : String × String) :
    tlookup (ts.map (fun kv => (kv.1, ({joinS kv.2} : Finset String)))) k
      = (tlookup ts k).map (fun v => ({joinS v} : Finset String)) :=
  tlookup_map_values ts (fun v => ({joinS v} : Finset String)) k

/-- The determinism half of C2, unconditional: after `determinize` every
transition entry's target set is the singleton composite name. -/
theorem is_deterministic_determinize (A : NFA) :
    is_deterministic (determinize A) = true := by
  simp only [is_deterministic, determinize, List.all_eq_true]
  intro kv hkv
  obtain ⟨kv0, _, heq⟩ := List.mem_map.mp hkv
  rw [← heq]
  simp

/-! ### Correctness of `determinize` in the absence of name collisions.

The counterexample above forces side conditions: the synthesized composite
names must neither collide with existing state names nor with each other
(injectivity of sorted concatenation on the relevant subsets), the spec's
structural invariants must hold, and the initial state must be set.  Under
those hypotheses the subset construction is language-preserving. -/

/-- The side conditions of the amended C2: the spec's structural invariants
(targets, key states and key symbols well-formed, entries non-empty, final
states and the initial state inside the state set, no empty-string state)
plus collision-freedom of the composite naming. -/
structure DetHyps (A0 : NFA) : Prop where
  hempty : "" ∉ A0.states
  hinit : A0.initial_state ∈ A0.states
  hkeys : ∀ kv ∈ A0.transitions,
    kv.1.1 ∈ A0.states ∧ kv.1.2 ∈ A0.alphabet ∧ kv.2 ⊆ A0.states ∧ kv.2.Nonempty
  hfin : A0.final_states ⊆ A0.states
  hfresh : ∀ S ∈ A0.states.powerset, 2 ≤ S.card → joinS S ∉ A0.states
  hinj : ∀ S ∈ A0.states.powerset, ∀ T ∈ A0.states.powerset,
    S.Nonempty → T.Nonempty → joinS S = joinS T → S = T

/-- Every name the construction can ever hold: original states and composite
names of subsets. -/
def dPool (A0 : NFA) : Finset String := A0.states ∪ A0.states.powerset.image joinS

/-- The state invariant of the creation phase: `B` is the original automaton
plus some created composites, with the original rows untouched. -/
structure DetInv (A0 B : NFA) : Prop where
  alph : B.alphabet = A0.alphabet
  init : B.initial_state = A0.initial_state
  stsub : A0.states ⊆ B.states
  frame0 : ∀ k : String × String, k.1 ∈ A0.states →
    tlookup B.transitions k = tlookup A0.transitions k
  reps : ∀ c ∈ B.states, c ∉ A0.states → ∃ S : Finset String,
    joinS S = c ∧ S ⊆ A0.states ∧ 2 ≤ S.card ∧
    (c ∈ B.final_states ↔ (S ∩ A0.final_states).Nonempty)
  fins : A0.final_states ⊆ B.final_states
  finNew : ∀ c ∈ B.final_states, c ∉ A0.final_states → c ∈ B.states ∧ c ∉ A0.states
  keys : ∀ kv ∈ B.transitions, kv.1.1 ∈ B.states ∧ kv.1.2 ∈ A0.alphabet
  pools : B.states ⊆ dPool A0

/-- A fully processed composite: its rows in `B` are exactly the reachable
rows of its member set and every multi-valued successor's name exists. -/
def Done (A0 B : NFA) (c : String) : Prop :=
  ∃ S : Finset String, joinS S = c ∧ S ⊆ A0.states ∧ 2 ≤ S.card ∧
    ∀ a ∈ A0.alphabet,
      tlookup B.transitions (c, a) =
        (if (find_reachable A0 S a).Nonempty then some (find_reachable A0 S a) else none) ∧
      ((find_reachable A0 S a).Nonempty → joinS (find_reachable A0 S a) ∈ B.states)

/-- All composites are processed except possibly those in `P` (the pending
call stack). -/
def DoneX (A0 B : NFA) (P : Finset String) : Prop :=
  ∀ c ∈ B.states, c ∉ A0.states → c ∉ P → Done A0 B c

theorem finSort_nodup (s : Finset String) : (finSort s).Nodup := by
  rcases s with ⟨v, hv⟩
  induction v using Quotient.inductionOn with
  | h l =>
    show (l.insertionSort pyle).Nodup
    exact (List.perm_insertionSort pyle l).nodup_iff.mpr hv

theorem length_finSort (s : Finset String) : (finSort s).length = s.card := by
  rcases s with ⟨v, hv⟩
  induction v using Quotient.inductionOn with
  | h l =>
    show (l.insertionSort pyle).length = l.length
    exact @List.length_insertionSort String pyle _ l

theorem finSort_singleton (q : String) : finSort {q} = [q] := by
  have hl : (finSort {q}).length = 1 := by rw [length_finSort]; simp
  cases hfs : finSort {q} with
  | nil => rw [hfs] at hl; simp at hl
  | cons x rest =>
    cases rest with
    | nil =>
      have hx : x ∈ finSort {q} := by rw [hfs]; exact List.mem_cons_self x []
      have : x = q := by simpa using mem_finSort.mp hx
      rw [this]
    | cons y rest2 => rw [hfs] at hl; simp at hl

theorem joinS_singleton (q : String) : joinS {q} = q := by
  unfold joinS
  rw [finSort_singleton]
  cases q
  simp

theorem flatMap_data_ne_nil (l : List String) (x : String) (hx : x ∈ l)
    (hxd : x.data ≠ []) : l.flatMap String.data ≠ [] := by
  induction l with
  | nil => simp at hx
  | cons y ys ih =>
    rw [List.flatMap_cons]
    intro h
    rcases List.append_eq_nil.mp h with ⟨h1, h2⟩
    rcases List.mem_cons.mp hx with rfl | hx2
    · exact hxd h1
    · exact ih hx2 h2

theorem joinS_ne_empty {S : Finset String} (h : ∀ x ∈ S, x ≠ "") (hne : S.Nonempty) :
    joinS S ≠ "" := by
  obtain ⟨x, hx⟩ := hne
  have hxl : x ∈ finSort S := mem_finSort.mpr hx
  have hxd : x.data ≠ [] := by
    intro hd
    apply h x hx
    cases x
    simp only [String.data] at hd
    rw [hd]
  intro he
  apply flatMap_data_ne_nil (finSort S) x hxl hxd
  have h2 : String.data (joinS S) = String.data "" := congrArg String.data he
  simpa [joinS] using h2

theorem tlookup_some_mem {ts : List ((String × String) × Finset String)}
    {k : String × String} {v : Finset String} (h : tlookup ts k = some v) :
    (k, v) ∈ ts := by
  unfold tlookup at h
  cases hf : ts.find? (fun kv => decide (kv.1 = k)) with
  | none => rw [hf] at h; simp at h
  | some kv =>
    rw [hf] at h
    simp only [Option.map_some'] at h
    have hp := @List.find?_some _ (fun kv => decide (kv.1 = k)) kv ts hf
    have hk : kv.1 = k := of_decide_eq_true hp
    have hmem := List.mem_of_find?_eq_some hf
    have hv : kv.2 = v := Option.some.inj h
    have : (k, v) = kv := by rw [← hk, ← hv]
    rw [this]
    exact hmem

theorem tlookup_none_of_forall {ts : List ((String × String) × Finset String)}
    {k : String × String} (h : ∀ kv ∈ ts, ¬ kv.1 = k) : tlookup ts k = none := by
  unfold tlookup
  rw [List.find?_eq_none.mpr (fun kv hkv => by simpa using h kv hkv)]
  rfl

theorem find_reachable_eq_of_frame (A0 B : NFA) (S : Finset String) (a : String)
    (hfr : ∀ q ∈ S, tlookup B.transitions (q, a) = tlookup A0.transitions (q, a)) :
    find_reachable B S a = find_reachable A0 S a :=
  Finset.biUnion_congr rfl (fun q hq => by unfold tget; rw [hfr q hq])

theorem find_reachable_subset (A0 : NFA)
    (hkeys : ∀ kv ∈ A0.transitions, kv.2 ⊆ A0.states) (S : Finset String) (a : String) :
    find_reachable A0 S a ⊆ A0.states := by
  intro x hx
  obtain ⟨q, _, hxq⟩ := Finset.mem_biUnion.mp hx
  unfold tget at hxq
  cases ht : tlookup A0.transitions (q, a) with
  | none => rw [ht] at hxq; simp at hxq
  | some v =>
    rw [ht] at hxq
    exact hkeys _ (tlookup_some_mem ht) (by simpa using hxq)

theorem find_reachable_empty_symbol (A0 : NFA)
    (hsym : ∀ kv ∈ A0.transitions, kv.1.2 ∈ A0.alphabet) (S : Finset String)
    (a : String) (ha : a ∉ A0.alphabet) : find_reachable A0 S a = ∅ := by
  ext x
  simp only [find_reachable, Finset.mem_biUnion, Finset.not_mem_empty, iff_false]
  rintro ⟨q, _, hxq⟩
  unfold tget at hxq
  have hnone : tlookup A0.transitions (q, a) = none := by
    apply tlookup_none_of_forall
    intro kv hkv he
    apply ha
    have h2 : kv.1.2 = a := by rw [he]
    rw [← h2]
    exact hsym kv hkv
  rw [hnone] at hxq
  simp at hxq

theorem Done_mono {A0 B B2 : NFA} {c : String}
    (hrows : ∀ a, tlookup B2.transitions (c, a) = tlookup B.transitions (c, a))
    (hst : B.states ⊆ B2.states) (hd : Done A0 B c) : Done A0 B2 c := by
  obtain ⟨S, h1, h2, h3, h4⟩ := hd
  exact ⟨S, h1, h2, h3, fun a ha =>
    ⟨(hrows a).trans (h4 a ha).1, fun hc => hst ((h4 a ha).2 hc)⟩⟩

theorem pool_card_lt (A0 B : NFA) (hsub : A0.states ⊆ B.states) :
    (dPool A0 \ B.states).card < 2 ^ A0.states.card + 1 := by
  have h1 : dPool A0 \ B.states ⊆ A0.states.powerset.image joinS := by
    intro x hx
    obtain ⟨hx1, hx2⟩ := Finset.mem_sdiff.mp hx
    rcases Finset.mem_union.mp hx1 with h | h
    · exact absurd (hsub h) hx2
    · exact h
  calc (dPool A0 \ B.states).card
      ≤ (A0.states.powerset.image joinS).card := Finset.card_le_card h1
    _ ≤ A0.states.powerset.card := Finset.card_image_le
    _ = 2 ^ A0.states.card := Finset.card_powerset _
    _ < 2 ^ A0.states.card + 1 := Nat.lt_succ_self _

theorem inter_final_eq {A0 B : NFA} (inv : DetInv A0 B) {S : Finset String}
    (hS : S ⊆ A0.states) : S ∩ B.final_states = S ∩ A0.final_states := by
  ext x
  simp only [Finset.mem_inter]
  constructor
  · rintro ⟨hx1, hx2⟩
    refine ⟨hx1, ?_⟩
    by_contra hx3
    exact (inv.finNew x hx2 hx3).2 (hS hx1)
  · rintro ⟨hx1, hx2⟩
    exact ⟨hx1, inv.fins hx2⟩

/-- What one completed `_determinize_state` call guarantees. -/
structure StatePost (A0 B B2 : NFA) (S : Finset String) (P : Finset String) : Prop where
  inv : DetInv A0 B2
  dx : DoneX A0 B2 P
  nameIn : joinS S ∈ B2.states
  stmono : B.states ⊆ B2.states
  finmono : B.final_states ⊆ B2.final_states
  newDone : ∀ c ∈ B2.states, c ∉ B.states → Done A0 B2 c
  frame : ∀ k : String × String, k.1 ∈ B.states →
    tlookup B2.transitions k = tlookup B.transitions k

/-- What the per-symbol loop of `_determinize_state` guarantees, relative to
the remaining symbol list `l`. -/
structure SymsPost (A0 B2 B3 : NFA) (S : Finset String) (name : String)
    (P : Finset String) (l : List String) : Prop where
  inv : DetInv A0 B3
  dx : DoneX A0 B3 (insert name P)
  stmono : B2.states ⊆ B3.states
  finmono : B2.final_states ⊆ B3.final_states
  newDone : ∀ c ∈ B3.states, c ∉ B2.states → Done A0 B3 c
  frame : ∀ k : String × String, k.1 ∈ B2.states → k.1 ≠ name →
    tlookup B3.transitions k = tlookup B2.transitions k
  rows : ∀ a ∈ l, tlookup B3.transitions (name, a) =
      (if (find_reachable A0 S a).Nonempty then some (find_reachable A0 S a) else none) ∧
      ((find_reachable A0 S a).Nonempty → joinS (find_reachable A0 S a) ∈ B3.states)
  rowsOther : ∀ a, a ∉ l → tlookup B3.transitions (name, a) = tlookup B2.transitions (name, a)

theorem add_state_of_ne (B : NFA) (s : String) (h : B.initial_state ≠ "") :
    add_state B s = { B with states := insert s B.states } := by
  unfold add_state
  rw [if_neg h]

/-- Freshly created composite states have at least two members. -/
theorem creation_card {A0 B : NFA} (hInv : DetInv A0 B) {S : Finset String}
    (hS : S ⊆ A0.states) (hSne : S.Nonempty) (hmem : joinS S ∉ B.states) :
    2 ≤ S.card := by
  rcases Nat.lt_or_ge S.card 2 with h | h
  · exfalso
    interval_cases hc : S.card
    · exact absurd (Finset.card_eq_zero.mp hc ▸ hSne) (by simp)
    · obtain ⟨q, hq⟩ := Finset.card_eq_one.mp hc
      apply hmem
      rw [hq, joinS_singleton]
      exact hInv.stsub (hS (hq ▸ Finset.mem_singleton_self q))
  · exact h

/-- The invariants survive the creation of a fresh composite (`add_state`
plus the conditional final marking), for any automaton `A2` matching that
shape. -/
theorem creation_inv {A0 B A2 : NFA} (H : DetHyps A0) {S : Finset String}
    {name : String} {P : Finset String}
    (hname : joinS S = name) (hS : S ⊆ A0.states) (hSne : S.Nonempty)
    (hmem : name ∉ B.states) (hInv : DetInv A0 B) (hDX : DoneX A0 B P)
    (h1 : A2.states = insert name B.states) (h2 : A2.alphabet = B.alphabet)
    (h3 : A2.initial_state = B.initial_state) (h4 : A2.transitions = B.transitions)
    (h5 : B.final_states ⊆ A2.final_states)
    (h6 : A2.final_states ⊆ insert name B.final_states)
    (h7 : name ∈ A2.final_states ↔ (S ∩ A0.final_states).Nonempty) :
    DetInv A0 A2 ∧ DoneX A0 A2 (insert name P) ∧ 2 ≤ S.card ∧ name ∉ A0.states := by
  have hScard : 2 ≤ S.card := creation_card hInv hS hSne (hname ▸ hmem)
  have hnst : name ∉ A0.states := by
    rw [← hname]
    exact H.hfresh S (Finset.mem_powerset.mpr hS) hScard
  have hInv2 : DetInv A0 A2 := by
    refine ⟨h2.trans hInv.alph, h3.trans hInv.init, ?_, ?_, ?_, ?_, ?_, ?_, ?_⟩
    · rw [h1]; exact hInv.stsub.trans (Finset.subset_insert name B.states)
    · intro k hk; rw [h4]; exact hInv.frame0 k hk
    · intro c hc hc0
      rw [h1] at hc
      rcases Finset.mem_insert.mp hc with rfl | hc2
      · exact ⟨S, hname, hS, hScard, h7⟩
      · obtain ⟨S2, hn2, hs2, hc2', hf2⟩ := hInv.reps c hc2 hc0
        refine ⟨S2, hn2, hs2, hc2', ?_⟩
        rw [← hf2]
        constructor
        · intro hcf
          rcases Finset.mem_insert.mp (h6 hcf) with rfl | hcf2
          · exact absurd hc2 hmem
          · exact hcf2
        · intro hcf; exact h5 hcf
    · exact hInv.fins.trans h5
    · intro c hc hc0
      rcases Finset.mem_insert.mp (h6 hc) with rfl | hc2
      · exact ⟨h1 ▸ Finset.mem_insert_self c B.states, hnst⟩
      · obtain ⟨hca, hcb⟩ := hInv.finNew c hc2 hc0
        exact ⟨h1 ▸ Finset.mem_insert_of_mem hca, hcb⟩
    · intro kv hkv
      rw [h4] at hkv
      obtain ⟨hka, hkb⟩ := hInv.keys kv hkv
      exact ⟨h1 ▸ Finset.mem_insert_of_mem hka, hkb⟩
    · rw [h1]
      intro x hx
      rcases Finset.mem_insert.mp hx with rfl | hx2
      · apply Finset.mem_union_right
        rw [← hname]
        exact Finset.mem_image_of_mem joinS (Finset.mem_powerset.mpr hS)
      · exact hInv.pools hx2
  refine ⟨hInv2, ?_, hScard, hnst⟩
  intro c hc hc0 hcP
  have hcne : c ≠ name := fun he => hcP (he ▸ Finset.mem_insert_self name P)
  have hc2 : c ∈ B.states := by
    rw [h1] at hc
    rcases Finset.mem_insert.mp hc with rfl | hc2
    · exact absurd rfl hcne
    · exact hc2
  have hd := hDX c hc2 hc0 (fun hp => hcP (Finset.mem_insert_of_mem hp))
  exact Done_mono (fun a => by rw [h4]) (h1 ▸ Finset.subset_insert name B.states) hd

theorem card_sdiff_mono {pool X Y : Finset String} (h : X ⊆ Y) :
    (pool \ Y).card ≤ (pool \ X).card :=
  Finset.card_le_card (Finset.sdiff_subset_sdiff (Finset.Subset.refl pool) h)

/-- The per-symbol loop of `_determinize_state`: processing the remaining
symbols `l` writes exactly the member set's reachable rows for the fresh
composite `name` and completes every composite it creates, given the
recursion hypothesis `IH` for the available fuel. -/
theorem detSyms_post (A0 : NFA) (H : DetHyps A0) (fuel : Nat)
    (IH : ∀ B S P, DetInv A0 B → DoneX A0 B P → S ⊆ A0.states → S.Nonempty →
      (dPool A0 \ B.states).card < fuel →
      StatePost A0 B (determinizeState fuel B S) S P)
    (S : Finset String) (name : String)
    (hname : joinS S = name) (hS : S ⊆ A0.states) (hnst : name ∉ A0.states) :
    ∀ (l : List String) (B2 : NFA) (P : Finset String),
      DetInv A0 B2 → DoneX A0 B2 (insert name P) → name ∈ B2.states →
      (∀ a ∈ l, a ∈ A0.alphabet ∧ tlookup B2.transitions (name, a) = none) →
      l.Nodup → (dPool A0 \ B2.states).card < fuel →
      SymsPost A0 B2 (l.foldl (fun B symbol =>
        let R := find_reachable B S symbol
        if R.Nonempty then
          determinizeState fuel
            { B with transitions := tset B.transitions (name, symbol) R } R
        else B) B2) S name P l := by
  intro l
  induction l with
  | nil =>
    intro B2 P hInv hDX hmem hrows hnd hfuel
    exact ⟨hInv, hDX, Finset.Subset.refl _, Finset.Subset.refl _,
      fun c hc hc2 => absurd hc hc2, fun k _ _ => rfl,
      fun a ha => absurd ha (List.not_mem_nil a), fun a _ => rfl⟩
  | cons a rest ih =>
    intro B2 P hInv hDX hmem hrows hnd hfuel
    have hal : a ∈ A0.alphabet := (hrows a (List.mem_cons_self a rest)).1
    have hrow0 : tlookup B2.transitions (name, a) = none :=
      (hrows a (List.mem_cons_self a rest)).2
    have hanr : a ∉ rest := (List.nodup_cons.mp hnd).1
    have hndr : rest.Nodup := (List.nodup_cons.mp hnd).2
    have hRfr : find_reachable B2 S a = find_reachable A0 S a :=
      find_reachable_eq_of_frame A0 B2 S a (fun q hq => hInv.frame0 (q, a) (hS hq))
    by_cases hRne : (find_reachable B2 S a).Nonempty
    · -- the row is written and the recursion processes its target set
      have hstep : List.foldl (fun B symbol =>
          let R := find_reachable B S symbol
          if R.Nonempty then
            determinizeState fuel
              { B with transitions := tset B.transitions (name, symbol) R } R
          else B) B2 (a :: rest) =
          List.foldl (fun B symbol =>
            let R := find_reachable B S symbol
            if R.Nonempty then
              determinizeState fuel
                { B with transitions := tset B.transitions (name, symbol) R } R
            else B)
            (determinizeState fuel
              { B2 with transitions := tset B2.transitions (name, a) (find_reachable B2 S a) }
              (find_reachable B2 S a)) rest := by
        rw [List.foldl_cons]
        congr 1
        show (if (find_reachable B2 S a).Nonempty then
            determinizeState fuel
              { B2 with transitions := tset B2.transitions (name, a) (find_reachable B2 S a) }
              (find_reachable B2 S a)
          else B2) = _
        rw [if_pos hRne]
      rw [hstep]
      have hInvSet : DetInv A0
          { B2 with transitions := tset B2.transitions (name, a) (find_reachable B2 S a) } := by
        refine ⟨hInv.alph, hInv.init, hInv.stsub, ?_, hInv.reps, hInv.fins,
          hInv.finNew, ?_, hInv.pools⟩
        · intro k hk
          have hkne : k ≠ (name, a) := by
            intro he
            apply hnst
            rw [he] at hk
            exact hk
          show tlookup (tset B2.transitions (name, a) (find_reachable B2 S a)) k
              = tlookup A0.transitions k
          rw [tlookup_tset_other B2.transitions (name, a) k _ hkne]
          exact hInv.frame0 k hk
        · intro kv hkv
          rcases mem_tset _ _ _ kv hkv with he | hkv2
          · rw [he]
            exact ⟨hmem, hal⟩
          · exact hInv.keys kv hkv2
      have hDXSet : DoneX A0
          { B2 with transitions := tset B2.transitions (name, a) (find_reachable B2 S a) }
          (insert name P) := by
        intro c hc hc0 hcP
        have hcne : c ≠ name := fun he => hcP (he ▸ Finset.mem_insert_self name P)
        have hd := hDX c hc hc0 hcP
        refine Done_mono (fun a2 => ?_) (Finset.Subset.refl B2.states) hd
        exact tlookup_tset_other B2.transitions (name, a) (c, a2) _
          (fun he => hcne (Prod.ext_iff.mp he).1)
      have hRS : find_reachable B2 S a ⊆ A0.states := by
        rw [hRfr]
        exact find_reachable_subset A0 (fun kv hkv => (H.hkeys kv hkv).2.2.1) S a
      have SP := IH { B2 with transitions := tset B2.transitions (name, a) (find_reachable B2 S a) }
        (find_reachable B2 S a) (insert name P) hInvSet hDXSet hRS hRne hfuel
      have hfuelNext : (dPool A0 \ (determinizeState fuel
          { B2 with transitions := tset B2.transitions (name, a) (find_reachable B2 S a) }
          (find_reachable B2 S a)).states).card < fuel :=
        lt_of_le_of_lt (card_sdiff_mono SP.stmono) hfuel
      have hrowsNext : ∀ a2 ∈ rest, a2 ∈ A0.alphabet ∧
          tlookup (determinizeState fuel
            { B2 with transitions := tset B2.transitions (name, a) (find_reachable B2 S a) }
            (find_reachable B2 S a)).transitions (name, a2) = none := by
        intro a2 ha2
        refine ⟨(hrows a2 (List.mem_cons_of_mem a ha2)).1, ?_⟩
        rw [SP.frame (name, a2) hmem]
        have hne2 : (name, a2) ≠ (name, a) := by
          intro he
          have ha2a : a2 = a := (Prod.ext_iff.mp he).2
          rw [ha2a] at ha2
          exact hanr ha2
        rw [tlookup_tset_other B2.transitions (name, a) (name, a2) _ hne2]
        exact (hrows a2 (List.mem_cons_of_mem a ha2)).2
      have hpost := ih (determinizeState fuel
          { B2 with transitions := tset B2.transitions (name, a) (find_reachable B2 S a) }
          (find_reachable B2 S a)) P SP.inv SP.dx (SP.stmono hmem) hrowsNext hndr hfuelNext
      refine ⟨hpost.inv, hpost.dx, SP.stmono.trans hpost.stmono,
        SP.finmono.trans hpost.finmono, ?_, ?_, ?_, ?_⟩
      · intro c hc hc2
        by_cases hcn : c ∈ (determinizeState fuel
            { B2 with transitions := tset B2.transitions (name, a) (find_reachable B2 S a) }
            (find_reachable B2 S a)).states
        · have hd := SP.newDone c hcn hc2
          have hcnename : c ≠ name := fun he => hc2 (he ▸ hmem)
          exact Done_mono (fun a2 => hpost.frame (c, a2) hcn hcnename) hpost.stmono hd
        · exact hpost.newDone c hc hcn
      · intro k hk hkname
        rw [hpost.frame k (SP.stmono hk) hkname, SP.frame k hk,
          tlookup_tset_other B2.transitions (name, a) k _
            (fun he => hkname (by rw [he]))]
      · intro a2 ha2
        rcases List.mem_cons.mp ha2 with rfl | ha3
        · have hpos : (find_reachable A0 S a2).Nonempty := hRfr ▸ hRne
          constructor
          · rw [hpost.rowsOther a2 hanr, SP.frame (name, a2) hmem,
              tlookup_tset_self B2.transitions (name, a2) _, hRfr, if_pos hpos]
          · intro _
            have h1 := SP.nameIn
            rw [← hRfr]
            exact hpost.stmono h1
        · exact hpost.rows a2 ha3
      · intro a2 ha2
        have h1 : a2 ≠ a := fun he => ha2 (he ▸ List.mem_cons_self a rest)
        have h2 : a2 ∉ rest := fun hr => ha2 (List.mem_cons_of_mem a hr)
        rw [hpost.rowsOther a2 h2, SP.frame (name, a2) hmem,
          tlookup_tset_other B2.transitions (name, a) (name, a2) _
            (fun he => h1 (Prod.ext_iff.mp he).2)]
    · -- empty row: nothing is written for this symbol
      have hstep : List.foldl (fun B symbol =>
          let R := find_reachable B S symbol
          if R.Nonempty then
            determinizeState fuel
              { B with transitions := tset B.transitions (name, symbol) R } R
          else B) B2 (a :: rest) =
          List.foldl (fun B symbol =>
            let R := find_reachable B S symbol
            if R.Nonempty then
              determinizeState fuel
                { B with transitions := tset B.transitions (name, symbol) R } R
            else B) B2 rest := by
        rw [List.foldl_cons]
        congr 1
        show (if (find_reachable B2 S a).Nonempty then
            determinizeState fuel
              { B2 with transitions := tset B2.transitions (name, a) (find_reachable B2 S a) }
              (find_reachable B2 S a)
          else B2) = B2
        rw [if_neg hRne]
      rw [hstep]
      have hpost := ih B2 P hInv hDX hmem
        (fun a2 ha2 => hrows a2 (List.mem_cons_of_mem a ha2)) hndr hfuel
      have hRne0 : ¬ (find_reachable A0 S a).Nonempty := by
        rw [← hRfr]
        exact hRne
      refine ⟨hpost.inv, hpost.dx, hpost.stmono, hpost.finmono, hpost.newDone,
        hpost.frame, ?_, ?_⟩
      · intro a2 ha2
        rcases List.mem_cons.mp ha2 with rfl | ha3
        · constructor
          · rw [hpost.rowsOther a2 hanr, hrow0, if_neg hRne0]
          · intro hcon
            exact absurd hcon hRne0
        · exact hpost.rows a2 ha3
      · intro a2 ha2
        exact hpost.rowsOther a2 (fun hr => ha2 (List.mem_cons_of_mem a hr))

theorem determinizeState_succ (fuel : Nat) (A : NFA) (S : Finset String) :
    determinizeState (fuel + 1) A S =
      if joinS S = "" ∨ joinS S ∈ A.states then A
      else
        (finSort (if (S ∩ (add_state A (joinS S)).final_states).Nonempty
            then { add_state A (joinS S) with
                   final_states := insert (joinS S) (add_state A (joinS S)).final_states }
            else add_state A (joinS S)).alphabet).foldl (fun B symbol =>
          let R := find_reachable B S symbol
          if R.Nonempty then
            determinizeState fuel
              { B with transitions := tset B.transitions (joinS S, symbol) R } R
          else B)
          (if (S ∩ (add_state A (joinS S)).final_states).Nonempty
            then { add_state A (joinS S) with
                   final_states := insert (joinS S) (add_state A (joinS S)).final_states }
            else add_state A (joinS S)) := rfl

/-- The postcondition of `_determinize_state`, by induction on the fuel: the
call completes the composite for `S` and everything it creates, touching no
existing row. -/
theorem detState_post (A0 : NFA) (H : DetHyps A0) :
    ∀ (fuel : Nat) (B : NFA) (S : Finset String) (P : Finset String),
      DetInv A0 B → DoneX A0 B P → S ⊆ A0.states → S.Nonempty →
      (dPool A0 \ B.states).card < fuel →
      StatePost A0 B (determinizeState fuel B S) S P := by
  intro fuel
  induction fuel with
  | zero =>
    intro B S P _ _ _ _ hf
    exact absurd hf (Nat.not_lt_zero _)
  | succ fuel IH =>
    intro B S P hInv hDX hS hSne hfuel
    have hne : joinS S ≠ "" :=
      joinS_ne_empty (fun x hx he => H.hempty (he ▸ hS hx)) hSne
    by_cases hmem : joinS S ∈ B.states
    · have hstop : determinizeState (fuel + 1) B S = B := by
        rw [determinizeState_succ, if_pos (Or.inr hmem)]
      rw [hstop]
      exact ⟨hInv, hDX, hmem, Finset.Subset.refl _, Finset.Subset.refl _,
        fun c hc hc2 => absurd hc hc2, fun k _ => rfl⟩
    · -- a fresh composite is created
      have hinitne : B.initial_state ≠ "" := by
        rw [hInv.init]
        intro he
        exact H.hempty (he ▸ H.hinit)
      have hScard : 2 ≤ S.card := creation_card hInv hS hSne hmem
      have hnst : joinS S ∉ A0.states :=
        H.hfresh S (Finset.mem_powerset.mpr hS) hScard
      have hpool : joinS S ∈ dPool A0 :=
        Finset.mem_union_right _
          (Finset.mem_image_of_mem joinS (Finset.mem_powerset.mpr hS))
      have key : ∀ A2x : NFA,
          A2x.states = insert (joinS S) B.states →
          A2x.alphabet = B.alphabet →
          A2x.initial_state = B.initial_state →
          A2x.transitions = B.transitions →
          B.final_states ⊆ A2x.final_states →
          A2x.final_states ⊆ insert (joinS S) B.final_states →
          ((joinS S) ∈ A2x.final_states ↔ (S ∩ A0.final_states).Nonempty) →
          StatePost A0 B ((finSort A2x.alphabet).foldl (fun B symbol =>
            let R := find_reachable B S symbol
            if R.Nonempty then
              determinizeState fuel
                { B with transitions := tset B.transitions (joinS S, symbol) R } R
            else B) A2x) S P := by
        intro A2x h1 h2 h3 h4 h5 h6 h7
        obtain ⟨hInv2, hDX2, _, _⟩ :=
          creation_inv H rfl hS hSne hmem hInv hDX h1 h2 h3 h4 h5 h6 h7
        have hmem2 : joinS S ∈ A2x.states := by
          rw [h1]
          exact Finset.mem_insert_self _ _
        have hrows : ∀ a ∈ finSort A2x.alphabet, a ∈ A0.alphabet ∧
            tlookup A2x.transitions (joinS S, a) = none := by
          intro a ha
          constructor
          · have h8 : a ∈ A2x.alphabet := mem_finSort.mp ha
            rw [h2, hInv.alph] at h8
            exact h8
          · rw [h4]
            apply tlookup_none_of_forall
            intro kv hkv he
            apply hmem
            have h9 : kv.1.1 = joinS S := by rw [he]
            rw [← h9]
            exact (hInv.keys kv hkv).1
        have hfuel2 : (dPool A0 \ A2x.states).card < fuel := by
          rw [h1, Finset.sdiff_insert]
          have h10 : joinS S ∈ dPool A0 \ B.states :=
            Finset.mem_sdiff.mpr ⟨hpool, hmem⟩
          calc ((dPool A0 \ B.states).erase (joinS S)).card
              < (dPool A0 \ B.states).card := Finset.card_erase_lt_of_mem h10
            _ ≤ fuel := Nat.lt_succ_iff.mp hfuel
        have SPs := detSyms_post A0 H fuel IH S (joinS S) rfl hS hnst
          (finSort A2x.alphabet) A2x P hInv2 hDX2 hmem2 hrows
          (finSort_nodup _) hfuel2
        have hDone : Done A0 ((finSort A2x.alphabet).foldl (fun B symbol =>
            let R := find_reachable B S symbol
            if R.Nonempty then
              determinizeState fuel
                { B with transitions := tset B.transitions (joinS S, symbol) R } R
            else B) A2x) (joinS S) := by
          refine ⟨S, rfl, hS, hScard, fun a ha => ?_⟩
          have ha2 : a ∈ finSort A2x.alphabet := by
            apply mem_finSort.mpr
            rw [h2, hInv.alph]
            exact ha
          exact SPs.rows a ha2
        refine ⟨SPs.inv, ?_, SPs.stmono hmem2, ?_, ?_, ?_, ?_⟩
        · -- every composite is processed once the call returns
          intro c hc hc0 hcP
          by_cases hcn : c = joinS S
          · rw [hcn]
            exact hDone
          · refine SPs.dx c hc hc0 ?_
            intro hcin
            rcases Finset.mem_insert.mp hcin with he | hp
            · exact hcn he
            · exact hcP hp
        · -- states of B survive
          intro x hx
          apply SPs.stmono
          rw [h1]
          exact Finset.mem_insert_of_mem hx
        · -- final states of B survive
          intro x hx
          exact SPs.finmono (h5 hx)
        · -- everything newly created is processed
          intro c hc hc2
          by_cases hcn : c = joinS S
          · rw [hcn]
            exact hDone
          · by_cases hcin : c ∈ A2x.states
            · exfalso
              rw [h1] at hcin
              rcases Finset.mem_insert.mp hcin with he | hp
              · exact hcn he
              · exact hc2 hp
            · exact SPs.newDone c hc hcin
        · -- no pre-existing row changes
          intro k hk
          have hkne : k.1 ≠ joinS S := fun he => hmem (he ▸ hk)
          have hkin : k.1 ∈ A2x.states := by
            rw [h1]
            exact Finset.mem_insert_of_mem hk
          rw [SPs.frame k hkin hkne, h4]
      rw [determinizeState_succ, if_neg (not_or.mpr ⟨hne, hmem⟩)]
      have hcond : (S ∩ (add_state B (joinS S)).final_states) = S ∩ A0.final_states := by
        rw [add_state_of_ne B (joinS S) hinitne]
        show S ∩ B.final_states = _
        exact inter_final_eq hInv hS
      rw [hcond]
      by_cases hfc : (S ∩ A0.final_states).Nonempty
      · rw [if_pos hfc]
        refine key _ rfl rfl ?_ rfl (Finset.subset_insert _ _) (Finset.Subset.refl _)
          (iff_of_true (Finset.mem_insert_self _ _) hfc)
        rw [add_state_of_ne B (joinS S) hinitne]
      · rw [if_neg hfc]
        refine key _ rfl rfl ?_ rfl (Finset.Subset.refl _) (Finset.subset_insert _ _) ?_
        · rw [add_state_of_ne B (joinS S) hinitne]
        · apply iff_of_false
          · show joinS S ∉ B.final_states
            intro hin
            have h11 : joinS S ∉ A0.final_states := fun hf0 => hnst (H.hfin hf0)
            exact hmem (hInv.finNew (joinS S) hin h11).1
          · exact hfc

/-- The loop of `determinize` over the snapshot of the original entries
preserves the invariants, leaves no composite pending, and records the
composite name of every processed multi-target row. -/
theorem detTop_fold (A0 : NFA) (H : DetHyps A0) (fuel : Nat)
    (hfuelall : ∀ B : NFA, DetInv A0 B → (dPool A0 \ B.states).card < fuel) :
    ∀ (l : List ((String × String) × Finset String)),
      (∀ kv ∈ l, kv ∈ A0.transitions) →
      ∀ B, DetInv A0 B → DoneX A0 B ∅ →
      DetInv A0 (l.foldl (fun B kv =>
        if 2 ≤ kv.2.card then determinizeState fuel B kv.2 else B) B) ∧
      DoneX A0 (l.foldl (fun B kv =>
        if 2 ≤ kv.2.card then determinizeState fuel B kv.2 else B) B) ∅ ∧
      B.states ⊆ (l.foldl (fun B kv =>
        if 2 ≤ kv.2.card then determinizeState fuel B kv.2 else B) B).states ∧
      (∀ kv ∈ l, 2 ≤ kv.2.card → joinS kv.2 ∈ (l.foldl (fun B kv =>
        if 2 ≤ kv.2.card then determinizeState fuel B kv.2 else B) B).states) := by
  intro l
  induction l with
  | nil =>
    intro _ B hInv hDX
    exact ⟨hInv, hDX, Finset.Subset.refl _,
      fun kv hkv => absurd hkv (List.not_mem_nil kv)⟩
  | cons kv rest ih =>
    intro hl B hInv hDX
    by_cases hc : 2 ≤ kv.2.card
    · have hk := H.hkeys kv (hl kv (List.mem_cons_self kv rest))
      have hSP := detState_post A0 H fuel B kv.2 ∅ hInv hDX hk.2.2.1 hk.2.2.2
        (hfuelall B hInv)
      have hstep : List.foldl (fun B kv =>
          if 2 ≤ kv.2.card then determinizeState fuel B kv.2 else B) B (kv :: rest) =
          List.foldl (fun B kv =>
            if 2 ≤ kv.2.card then determinizeState fuel B kv.2 else B)
            (determinizeState fuel B kv.2) rest := by
        rw [List.foldl_cons]
        congr 1
        show (if 2 ≤ kv.2.card then determinizeState fuel B kv.2 else B) = _
        rw [if_pos hc]
      rw [hstep]
      have hrest := ih (fun kv2 h2 => hl kv2 (List.mem_cons_of_mem kv h2))
        (determinizeState fuel B kv.2) hSP.inv hSP.dx
      refine ⟨hrest.1, hrest.2.1, hSP.stmono.trans hrest.2.2.1, ?_⟩
      intro kv2 hkv2 hc2
      rcases List.mem_cons.mp hkv2 with rfl | h2
      · exact hrest.2.2.1 hSP.nameIn
      · exact hrest.2.2.2 kv2 h2 hc2
    · have hstep : List.foldl (fun B kv =>
          if 2 ≤ kv.2.card then determinizeState fuel B kv.2 else B) B (kv :: rest) =
          List.foldl (fun B kv =>
            if 2 ≤ kv.2.card then determinizeState fuel B kv.2 else B) B rest := by
        rw [List.foldl_cons]
        congr 1
        show (if 2 ≤ kv.2.card then determinizeState fuel B kv.2 else B) = B
        rw [if_neg hc]
      rw [hstep]
      have hrest := ih (fun kv2 h2 => hl kv2 (List.mem_cons_of_mem kv h2)) B hInv hDX
      refine ⟨hrest.1, hrest.2.1, hrest.2.2.1, ?_⟩
      intro kv2 hkv2 hc2
      rcases List.mem_cons.mp hkv2 with rfl | h2
      · exact absurd hc2 hc
      · exact hrest.2.2.2 kv2 h2 hc2

theorem determinize_eq (A : NFA) :
    determinize A =
      { (A.transitions.foldl (fun B kv =>
          if 2 ≤ kv.2.card then determinizeState (2 ^ A.states.card + 1) B kv.2 else B) A) with
        transitions := (A.transitions.foldl (fun B kv =>
          if 2 ≤ kv.2.card then determinizeState (2 ^ A.states.card + 1) B kv.2 else B)
            A).transitions.map (fun kv => (kv.1, ({joinS kv.2} : Finset String))) } := rfl

/-- Original states keep their finality through the construction. -/
theorem final_iff_orig {A0 A1 : NFA} (hInv : DetInv A0 A1) {q : String}
    (hq : q ∈ A0.states) : q ∈ A1.final_states ↔ q ∈ A0.final_states := by
  constructor
  · intro h
    by_contra h0
    exact (hInv.finNew q h h0).2 hq
  · exact fun h => hInv.fins h

/-- A reachable composite's finality and rows, recovered through the
injectivity of the naming. -/
theorem comp_spec (A0 : NFA) (H : DetHyps A0) {A1 : NFA} (hInv : DetInv A0 A1)
    (hDA : DoneX A0 A1 ∅) {C : Finset String} (hC : C ⊆ A0.states)
    (h2 : 2 ≤ C.card) (h3 : joinS C ∈ A1.states) :
    (joinS C ∈ A1.final_states ↔ (C ∩ A0.final_states).Nonempty) ∧
    ∀ a ∈ A0.alphabet,
      tlookup A1.transitions (joinS C, a) =
        (if (find_reachable A0 C a).Nonempty then some (find_reachable A0 C a) else none) ∧
      ((find_reachable A0 C a).Nonempty → joinS (find_reachable A0 C a) ∈ A1.states) := by
  have hnst : joinS C ∉ A0.states := H.hfresh C (Finset.mem_powerset.mpr hC) h2
  have hCne : C.Nonempty := Finset.card_pos.mp (lt_of_lt_of_le two_pos h2)
  constructor
  · obtain ⟨S2, hn2, hs2, hc2, hf2⟩ := hInv.reps (joinS C) h3 hnst
    have hS2ne : S2.Nonempty := Finset.card_pos.mp (lt_of_lt_of_le two_pos hc2)
    have hS2C : S2 = C := H.hinj S2 (Finset.mem_powerset.mpr hs2) C
      (Finset.mem_powerset.mpr hC) hS2ne hCne hn2
    rw [hS2C] at hf2
    exact hf2
  · obtain ⟨S3, hn3, hs3, hc3, hrow⟩ := hDA (joinS C) h3 hnst (Finset.not_mem_empty _)
    have hS3ne : S3.Nonempty := Finset.card_pos.mp (lt_of_lt_of_le two_pos hc3)
    have hS3C : S3 = C := H.hinj S3 (Finset.mem_powerset.mpr hs3) C
      (Finset.mem_powerset.mpr hC) hS3ne hCne hn3
    rw [hS3C] at hrow
    exact hrow

/-- The final rewriting pass of `determinize` (lines 249-252), as a
function of the state reached by the creation loop. -/
def detRewrite (A1 : NFA) : NFA :=
  { A1 with
    transitions := A1.transitions.map (fun kv => (kv.1, ({joinS kv.2} : Finset String))) }

theorem determinize_eq_rewrite (A : NFA) :
    determinize A = detRewrite (A.transitions.foldl (fun B kv =>
      if 2 ≤ kv.2.card then determinizeState (2 ^ A.states.card + 1) B kv.2 else B) A) := rfl

/-- One simulation step: the determinized automaton's singleton run set
tracks the composite name of the original's run set. -/
theorem step_match (A0 : NFA) (H : DetHyps A0) (A1 : NFA)
    (hInv : DetInv A0 A1) (hDA : DoneX A0 A1 ∅)
    (hg5 : ∀ kv ∈ A0.transitions, 2 ≤ kv.2.card → joinS kv.2 ∈ A1.states)
    (C : Finset String) (a : String) (hCsub : C ⊆ A0.states)
    (hCgood : C = ∅ ∨ C.card = 1 ∨ (2 ≤ C.card ∧ joinS C ∈ A1.states)) :
    stepSet (detRewrite A1) (if C = ∅ then ∅ else {joinS C}) a
      = (if stepSet A0 C a = ∅ then ∅ else {joinS (stepSet A0 C a)}) ∧
    stepSet A0 C a ⊆ A0.states ∧
    (stepSet A0 C a = ∅ ∨ (stepSet A0 C a).card = 1 ∨
      (2 ≤ (stepSet A0 C a).card ∧ joinS (stepSet A0 C a) ∈ A1.states)) := by
  have hsub : stepSet A0 C a ⊆ A0.states :=
    find_reachable_subset A0 (fun kv hkv => (H.hkeys kv hkv).2.2.1) C a
  have hsfr : stepSet A0 C a = find_reachable A0 C a := rfl
  rcases hCgood with rfl | h1 | ⟨h2, h3⟩
  · -- empty stays empty
    have he : stepSet A0 ∅ a = ∅ := Finset.biUnion_empty
    refine ⟨?_, hsub, Or.inl he⟩
    rw [if_pos rfl, he, if_pos rfl]
    exact Finset.biUnion_empty
  · -- singleton: follow the rewritten original row
    obtain ⟨q, hq⟩ := Finset.card_eq_one.mp h1
    subst hq
    have hqst : q ∈ A0.states := hCsub (Finset.mem_singleton_self q)
    have hCne : ({q} : Finset String) ≠ ∅ := by simp
    rw [if_neg hCne, joinS_singleton]
    have hstep1 : stepSet (detRewrite A1) {q} a
        = tget (A1.transitions.map (fun kv => (kv.1, ({joinS kv.2} : Finset String)))) (q, a) :=
      Finset.singleton_biUnion
    have hstep0 : stepSet A0 {q} a = tget A0.transitions (q, a) :=
      Finset.singleton_biUnion
    rw [hstep1, hstep0]
    unfold tget
    rw [tlookup_map_join, hInv.frame0 (q, a) hqst]
    cases hrow : tlookup A0.transitions (q, a) with
    | none =>
      exact ⟨by simp, by simp, Or.inl rfl⟩
    | some v =>
      have hvmem : ((q, a), v) ∈ A0.transitions := tlookup_some_mem hrow
      have hv := H.hkeys _ hvmem
      have hvne : v ≠ ∅ := Finset.nonempty_iff_ne_empty.mp hv.2.2.2
      refine ⟨by simp [hvne], hv.2.2.1, ?_⟩
      by_cases hv2 : 2 ≤ v.card
      · exact Or.inr (Or.inr ⟨hv2, hg5 _ hvmem hv2⟩)
      · refine Or.inr (Or.inl ?_)
        show v.card = 1
        have hv1 : 1 ≤ v.card := Finset.card_pos.mpr hv.2.2.2
        omega
  · -- composite: follow its processed rows
    have hCne : C ≠ ∅ :=
      Finset.nonempty_iff_ne_empty.mp (Finset.card_pos.mp (lt_of_lt_of_le two_pos h2))
    rw [if_neg hCne]
    have hstep1 : stepSet (detRewrite A1) {joinS C} a
        = tget (A1.transitions.map (fun kv => (kv.1, ({joinS kv.2} : Finset String)))) (joinS C, a) :=
      Finset.singleton_biUnion
    rw [hstep1]
    unfold tget
    rw [tlookup_map_join]
    by_cases ha : a ∈ A0.alphabet
    · have hrows := (comp_spec A0 H hInv hDA hCsub h2 h3).2 a ha
      by_cases hne : (find_reachable A0 C a).Nonempty
      · have hr1 : tlookup A1.transitions (joinS C, a) = some (find_reachable A0 C a) := by
          rw [hrows.1, if_pos hne]
        rw [hr1]
        have hne2 : find_reachable A0 C a ≠ ∅ := Finset.nonempty_iff_ne_empty.mp hne
        refine ⟨?_, hsub, ?_⟩
        · rw [hsfr, if_neg hne2]
          rfl
        · rw [hsfr]
          by_cases hc2 : 2 ≤ (find_reachable A0 C a).card
          · exact Or.inr (Or.inr ⟨hc2, hrows.2 hne⟩)
          · refine Or.inr (Or.inl ?_)
            have hc1 : 1 ≤ (find_reachable A0 C a).card := Finset.card_pos.mpr hne
            omega
      · have hr1 : tlookup A1.transitions (joinS C, a) = none := by
          rw [hrows.1, if_neg hne]
        have he : find_reachable A0 C a = ∅ := Finset.not_nonempty_iff_eq_empty.mp hne
        rw [hr1, hsfr, he]
        exact ⟨by simp, Finset.empty_subset _, Or.inl rfl⟩
    · have hr1 : tlookup A1.transitions (joinS C, a) = none := by
        apply tlookup_none_of_forall
        intro kv hkv he
        apply ha
        have h4 : kv.1.2 = a := by rw [he]
        rw [← h4]
        exact (hInv.keys kv hkv).2
      have he : find_reachable A0 C a = ∅ :=
        find_reachable_empty_symbol A0 (fun kv hkv => (H.hkeys kv hkv).2.1) C a ha
      rw [hr1, hsfr, he]
      exact ⟨by simp, Finset.empty_subset _, Or.inl rfl⟩

theorem accept_eq_runFrom (A : NFA) (input : List String) :
    accept A input =
      decide ((runFrom A {A.initial_state} input ∩ A.final_states).Nonempty) := by
  rw [runFrom_eq_foldl]
  rfl

theorem singleton_inter_nonempty_iff {a : String} {s : Finset String} :
    (({a} : Finset String) ∩ s).Nonempty ↔ a ∈ s := by
  by_cases h : a ∈ s
  · rw [Finset.singleton_inter_of_mem h]
    exact iff_of_true ⟨a, Finset.mem_singleton_self a⟩ h
  · rw [Finset.singleton_inter_of_not_mem h]
    exact iff_of_false (by simp) h

/-- The run-set bisimulation between the original automaton and the rewrite
of the fully processed creation state. -/
theorem det_bisim (A0 : NFA) (H : DetHyps A0) (A1 : NFA)
    (hInv : DetInv A0 A1) (hDA : DoneX A0 A1 ∅)
    (hg5 : ∀ kv ∈ A0.transitions, 2 ≤ kv.2.card → joinS kv.2 ∈ A1.states) :
    ∀ (input : List String) (C : Finset String),
      C ⊆ A0.states →
      (C = ∅ ∨ C.card = 1 ∨ (2 ≤ C.card ∧ joinS C ∈ A1.states)) →
      ((runFrom (detRewrite A1) (if C = ∅ then ∅ else {joinS C}) input
          ∩ (detRewrite A1).final_states).Nonempty ↔
        (runFrom A0 C input ∩ A0.final_states).Nonempty) := by
  intro input
  induction input with
  | nil =>
    intro C hCsub hCgood
    simp only [runFrom]
    rcases hCgood with rfl | h1 | ⟨h2, h3⟩
    · rw [if_pos rfl]
      simp
    · obtain ⟨q, hq⟩ := Finset.card_eq_one.mp h1
      subst hq
      rw [if_neg (by simp), joinS_singleton,
        singleton_inter_nonempty_iff, singleton_inter_nonempty_iff]
      exact final_iff_orig hInv (hCsub (Finset.mem_singleton_self q))
    · have hCne : C ≠ ∅ :=
        Finset.nonempty_iff_ne_empty.mp (Finset.card_pos.mp (lt_of_lt_of_le two_pos h2))
      rw [if_neg hCne, singleton_inter_nonempty_iff]
      exact (comp_spec A0 H hInv hDA hCsub h2 h3).1
  | cons a rest ihr =>
    intro C hCsub hCgood
    simp only [runFrom]
    obtain ⟨h1, h2, h3⟩ := step_match A0 H A1 hInv hDA hg5 C a hCsub hCgood
    rw [h1]
    exact ihr (stepSet A0 C a) h2 h3

/-- C2 amended: `determinize()` always rewrites every transition entry's
target set into a singleton, so `is_deterministic()` holds afterwards; and
provided no synthesized composite name collides with an existing state name
or with the composite of a different member set (the unguarded collision
spec section 9 flags, violated by `exDet`), and the spec's structural
invariants hold with the initial state set, the determinized automaton
accepts exactly the strings the original accepted. -/
theorem determinize_amended (A : NFA)
    (hempty : "" ∉ A.states)
    (hinit : A.initial_state ∈ A.states)
    (hkeys : ∀ kv ∈ A.transitions,
      kv.1.1 ∈ A.states ∧ kv.1.2 ∈ A.alphabet ∧ kv.2 ⊆ A.states ∧ kv.2.Nonempty)
    (hfin : A.final_states ⊆ A.states)
    (hfresh : ∀ S ∈ A.states.powerset, 2 ≤ S.card → joinS S ∉ A.states)
    (hinj : ∀ S ∈ A.states.powerset, ∀ T ∈ A.states.powerset,
      S.Nonempty → T.Nonempty → joinS S = joinS T → S = T) :
    is_deterministic (determinize A) = true ∧
    ∀ input, accept (determinize A) input = accept A input := by
  have H : DetHyps A := ⟨hempty, hinit, hkeys, hfin, hfresh, hinj⟩
  refine ⟨is_deterministic_determinize A, fun input => ?_⟩
  have hInv0 : DetInv A A :=
    ⟨rfl, rfl, Finset.Subset.refl _, fun k _ => rfl,
      fun c hc hc0 => absurd hc hc0, Finset.Subset.refl _,
      fun c hc hc0 => absurd hc hc0,
      fun kv hkv => ⟨(hkeys kv hkv).1, (hkeys kv hkv).2.1⟩,
      Finset.subset_union_left⟩
  have hDX0 : DoneX A A ∅ := fun c hc hc0 _ => absurd hc hc0
  have hfuelall : ∀ B, DetInv A B → (dPool A \ B.states).card < 2 ^ A.states.card + 1 :=
    fun B hI => pool_card_lt A B hI.stsub
  obtain ⟨hInv1, hDX1, _, hg5⟩ := detTop_fold A H (2 ^ A.states.card + 1) hfuelall
    A.transitions (fun kv h => h) A hInv0 hDX0
  rw [accept_eq_runFrom, accept_eq_runFrom, determinize_eq_rewrite]
  apply decide_eq_decide.mpr
  have hb := det_bisim A H _ hInv1 hDX1 hg5 input {A.initial_state}
    (Finset.singleton_subset_iff.mpr hinit)
    (Or.inr (Or.inl (Finset.card_singleton _)))
  rw [if_neg (by simp), joinS_singleton] at hb
  have hstart : (detRewrite (A.transitions.foldl (fun B kv =>
      if 2 ≤ kv.2.card then determinizeState (2 ^ A.states.card + 1) B kv.2 else B)
      A)).initial_state = A.initial_state := hInv1.init
  rw [hstart]
  exact hb

/-- The spec's section 8 concrete scenario. -/
def exScenario : NFA :=
  ⟨{"q0", "q1"}, {"0", "1"}, [(("q0", "0"), {"q0", "q1"}), (("q0", "1"), {"q0"})],
    "q0", {"q1"}⟩

/-- Witness for the amended C2 at the spec's concrete scenario. -/
theorem determinize_amended_witness :
    is_deterministic (determinize exScenario) = true ∧
    ∀ input, accept (determinize exScenario) input = accept exScenario input :=
  determinize_amended exScenario (by decide) (by decide) (by decide) (by decide)
    (by decide) (by decide)

end Simone
